import Mathlib

/-!
Verification of the Monte-Carlo tree-search engine in `player-of-games`.

The Rust sources are shallowly embedded here:
  * `HashMap` becomes an association list (`List (K × V)`) with in-place
    replacing insertion (`setKey`), key removal (`removeKey`) and first-match
    lookup (`lookupKey`); the store `explored_states` is such a list keyed by
    game position.
  * `u8` counters become `Nat`; the `u8` summations done by
    `Node::attempts/wins/losses` (`map.values().sum::<u8>()`) are taken
    modulo `2^8`, the wrapping two's-complement semantics of the machine type.
  * recursion over the exploration graph (which the Rust code performs
    directly, diverging on a cyclic graph) is fuelled: every graph-recursive
    function takes a `Nat` fuel and returns `none` when the fuel runs out.
  * every panicking operation (`expect`, `unwrap`, the NaN fail-fast in
    `OrdF64::new`) is modelled by an `Option` result, `none` meaning the
    process aborts.
  * `f64` selection scores become exact reals; `f64::MAX` is the real value
    of the largest finite double.  A not-a-number score (which in the code
    arises exactly when `ln` is taken of a zero visit count while the child
    count is nonzero) is modelled by `none`.
-/

/-- The two players (`game::PlayerEnum`). -/
inductive PlayerEnum : Type
  | one
  | two
deriving DecidableEq, Repr

/-- `PlayerEnum::other`. -/
def PlayerEnum.other : PlayerEnum → PlayerEnum
  | .one => .two
  | .two => .one

/-- Game conclusions (`game::Conclusion`). -/
inductive Conclusion : Type
  | win (p : PlayerEnum)
  | draw
deriving DecidableEq, Repr

/-- First-match lookup in an association list (`HashMap::get`). -/
def lookupKey {K V : Type} [DecidableEq K] : List (K × V) → K → Option V
  | [], _ => none
  | (k, v) :: rest, key => if k = key then some v else lookupKey rest key

/-- Insert-or-replace in an association list (`HashMap::insert`): the first
entry carrying the key is replaced in place, a missing key is appended. -/
def setKey {K V : Type} [DecidableEq K] : List (K × V) → K → V → List (K × V)
  | [], key, v => [(key, v)]
  | (k0, v0) :: rest, key, v =>
      if k0 = key then (key, v) :: rest else (k0, v0) :: setKey rest key v

/-- Key removal in an association list (`HashMap::remove`). -/
def removeKey {K V : Type} [DecidableEq K] (l : List (K × V)) (key : K) : List (K × V) :=
  l.filter (fun kv => kv.1 ≠ key)

/-- `HashMap::extend`: insert every entry of `sub` into `m`, overwriting
entries whose key already occurs. -/
def extendEntries {K V : Type} [DecidableEq K] (m sub : List (K × V)) : List (K × V) :=
  sub.foldl (fun acc kv => setKey acc kv.1 kv.2) m

/-- The exploration record of one position (`Node` in
`player-of-games/src/lib.rs`).  The vestigial `debug_*` `RwLock` counters are
instrumentation only (they are written, never read back by the algorithm) and
are omitted. -/
structure Node (P M : Type) : Type where
  player : PlayerEnum
  local_attempts : Nat
  local_wins : Nat
  local_losses : Nat
  children : List (M × P)
  parents : List (M × P)
deriving DecidableEq, Repr

/-- The content-addressed node store (`explored_states : HashMap<Game, Node>`). -/
def Store (P M : Type) : Type := List (P × Node P M)

instance {P M : Type} [DecidableEq P] [DecidableEq M] : DecidableEq (Store P M) := by
  unfold Store; infer_instance

/-- `HashMap::get` on the store. -/
def storeGet {P M : Type} [DecidableEq P] (st : Store P M) (p : P) : Option (Node P M) :=
  lookupKey st p

/-- `Node::new(player, parent)`. -/
def Node.new {P M : Type} (player : PlayerEnum) (parent : Option (M × P)) : Node P M :=
  { player := player
    local_attempts := 0
    local_wins := 0
    local_losses := 0
    children := []
    parents := match parent with
      | some (k, v) => [(k, v)]
      | none => [] }

/-- `Node::tree_attempts`: builds the map from each descendant position to its
`local_attempts`, by folding over the known children: the child's own subtree
map is merged in (`extend`) and then the child's entry is inserted.  The
`cache.get(child).expect("Dangling pointer")` panic and the divergence of the
Rust recursion on a cyclic graph are both modelled by `none` (with fuel). -/
def tree_attempts {P M : Type} [DecidableEq P] (cache : Store P M) :
    Nat → Node P M → Option (List (P × Nat))
  | 0, _ => none
  | fuel + 1, node =>
      node.children.foldl
        (fun acc mc =>
          acc.bind fun map =>
            (storeGet cache mc.2).bind fun child_node =>
              (tree_attempts cache fuel child_node).map fun sub =>
                setKey (extendEntries map sub) mc.2 child_node.local_attempts)
        (some [])

/-- Sum of the values of an association list, as the `u8` summation
`map.values().sum::<u8>()` performs it: reduced modulo `2^8`. -/
def valuesSum8 {K : Type} (m : List (K × Nat)) : Nat :=
  (m.map Prod.snd).sum % 256

/-- `Node::attempts`: the aggregate visit count, a `u8` sum over the map
produced by `tree_attempts`. -/
def attempts {P M : Type} [DecidableEq P] (cache : Store P M) (fuel : Nat)
    (node : Node P M) : Option Nat :=
  (tree_attempts cache fuel node).map valuesSum8

/-- The mutually recursive `Node::tree_wins` / `Node::tree_losses` pair,
embedded as one fuelled function with a flag: `tree_wl cache true` is
`tree_wins` (children contribute their `local_losses` and their
`tree_losses` subtree map), `tree_wl cache false` is `tree_losses`
(children contribute their `local_wins` and their `tree_wins` map). -/
def tree_wl {P M : Type} [DecidableEq P] (cache : Store P M) :
    Bool → Nat → Node P M → Option (List (P × Nat))
  | _, 0, _ => none
  | isWins, fuel + 1, node =>
      node.children.foldl
        (fun acc mc =>
          acc.bind fun map =>
            (storeGet cache mc.2).bind fun child_node =>
              (tree_wl cache (!isWins) fuel child_node).map fun sub =>
                setKey (extendEntries map sub) mc.2
                  (if isWins then child_node.local_losses else child_node.local_wins))
        (some [])

/-- `Node::tree_wins`. -/
def tree_wins {P M : Type} [DecidableEq P] (cache : Store P M) :
    Nat → Node P M → Option (List (P × Nat)) :=
  tree_wl cache true

/-- `Node::tree_losses`. -/
def tree_losses {P M : Type} [DecidableEq P] (cache : Store P M) :
    Nat → Node P M → Option (List (P × Nat)) :=
  tree_wl cache false

/-- `Node::wins`: aggregate win count (`u8` sum of the `tree_wins` map). -/
def wins {P M : Type} [DecidableEq P] (cache : Store P M) (fuel : Nat)
    (node : Node P M) : Option Nat :=
  (tree_wins cache fuel node).map valuesSum8

/-- `Node::losses`: aggregate loss count (`u8` sum of the `tree_losses` map). -/
def losses {P M : Type} [DecidableEq P] (cache : Store P M) (fuel : Nat)
    (node : Node P M) : Option Nat :=
  (tree_losses cache fuel node).map valuesSum8

/-- The keys of an association list. -/
def keysOf {K V : Type} (m : List (K × V)) : List K :=
  m.map Prod.fst

/-- Exact (unbounded) sum of the values of an association list; the reference
value against which the `u8` summation `valuesSum8` is compared. -/
def valuesSumExact {K : Type} (m : List (K × Nat)) : Nat :=
  (m.map Prod.snd).sum

/-- The `local_attempts` counter stored for position `p` (0 if absent). -/
def localAttemptsAt {P M : Type} [DecidableEq P] (cache : Store P M) (p : P) : Nat :=
  match storeGet cache p with
  | some n => n.local_attempts
  | none => 0

/-- Chains of child edges: `DescN cache node k p` holds when position `p` is
reachable from the record `node` by following exactly `k ≥ 1` child edges,
resolving intermediate positions through the store. -/
inductive DescN {P M : Type} [DecidableEq P] (cache : Store P M) :
    Node P M → Nat → P → Prop
  | base {node : Node P M} {m : M} {c : P} :
      (m, c) ∈ node.children → DescN cache node 1 c
  | step {node : Node P M} {m : M} {c : P} {cn : Node P M} {k : Nat} {p : P} :
      (m, c) ∈ node.children → storeGet cache c = some cn →
      DescN cache cn k p → DescN cache node (k + 1) p

/-- The descendant set of a node: positions reachable by at least one child
edge. -/
def IsDescendant {P M : Type} [DecidableEq P] (cache : Store P M)
    (node : Node P M) (p : P) : Prop :=
  ∃ k, DescN cache node k p

theorem DescN_pos {P M : Type} [DecidableEq P] {cache : Store P M}
    {node : Node P M} {k : Nat} {p : P} (h : DescN cache node k p) : 1 ≤ k := by
  cases h <;> omega

/-- Composition of chains through a store-resolved position. -/
theorem DescN_comp {P M : Type} [DecidableEq P] {cache : Store P M}
    {node : Node P M} {k : Nat} {p : P}
    (h1 : DescN cache node k p) :
    ∀ {pn : Node P M} {j : Nat} {q : P}, storeGet cache p = some pn →
      DescN cache pn j q → DescN cache node (k + j) q := by
  induction h1 with
  | base hmc =>
      intro pn j q hp h2
      have : (1 : Nat) + j = j + 1 := by omega
      rw [this]
      exact DescN.step hmc hp h2
  | step hmc hc _ ih =>
      intro pn j q hp h2
      have hk : ∀ a b : Nat, a + 1 + b = (a + b) + 1 := by omega
      rw [hk]
      exact DescN.step hmc hc (ih hp h2)

/-- Single-step elements of the fold shared by `tree_attempts`,
`tree_wins` and `tree_losses`: resolve the child, run `F` on the child
record, merge the result and insert the child's own entry with value `g`. -/
def aggFold {P M : Type} [DecidableEq P] (cache : Store P M)
    (F : Node P M → Option (List (P × Nat))) (g : Node P M → Nat)
    (children : List (M × P)) : Option (List (P × Nat)) :=
  children.foldl
    (fun acc mc =>
      acc.bind fun map =>
        (storeGet cache mc.2).bind fun child_node =>
          (F child_node).map fun sub =>
            setKey (extendEntries map sub) mc.2 (g child_node))
    (some [])

theorem tree_attempts_eq_aggFold {P M : Type} [DecidableEq P]
    (cache : Store P M) (fuel : Nat) (node : Node P M) :
    tree_attempts cache (fuel + 1) node =
      aggFold cache (tree_attempts cache fuel) Node.local_attempts node.children := rfl

theorem tree_wl_eq_aggFold {P M : Type} [DecidableEq P]
    (cache : Store P M) (isWins : Bool) (fuel : Nat) (node : Node P M) :
    tree_wl cache isWins (fuel + 1) node =
      aggFold cache (tree_wl cache (!isWins) fuel)
        (fun cn => if isWins then cn.local_losses else cn.local_wins) node.children := rfl

theorem tree_attempts_zero {P M : Type} [DecidableEq P]
    (cache : Store P M) (node : Node P M) : tree_attempts cache 0 node = none := rfl

theorem tree_wl_zero {P M : Type} [DecidableEq P]
    (cache : Store P M) (isWins : Bool) (node : Node P M) :
    tree_wl cache isWins 0 node = none := rfl

theorem mem_setKey_elim {K V : Type} [DecidableEq K] (m : List (K × V)) (k : K) (v : V)
    (e : K × V) (he : e ∈ setKey m k v) : e = (k, v) ∨ e ∈ m := by
  induction m with
  | nil => simpa [setKey] using he
  | cons kv rest ih =>
      obtain ⟨k0, v0⟩ := kv
      by_cases hk : k0 = k
      · simp [setKey, hk] at he
        rcases he with h | h
        · exact Or.inl (by simp [h])
        · exact Or.inr (by simp [h])
      · simp [setKey, hk] at he
        rcases he with h | h
        · exact Or.inr (by simp [h])
        · rcases ih h with h' | h'
          · exact Or.inl h'
          · exact Or.inr (by simp [h'])

theorem keysOf_nil {K V : Type} : keysOf ([] : List (K × V)) = [] := rfl

theorem keysOf_cons {K V : Type} (kv : K × V) (l : List (K × V)) :
    keysOf (kv :: l) = kv.1 :: keysOf l := rfl

theorem setKey_cons_eq {K V : Type} [DecidableEq K] {k0 k : K} (v0 : V) (v : V)
    (rest : List (K × V)) (h : k0 = k) :
    setKey ((k0, v0) :: rest) k v = (k, v) :: rest := by
  simp [setKey, h]

theorem setKey_cons_ne {K V : Type} [DecidableEq K] {k0 k : K} (v0 : V) (v : V)
    (rest : List (K × V)) (h : ¬k0 = k) :
    setKey ((k0, v0) :: rest) k v = (k0, v0) :: setKey rest k v := by
  simp [setKey, h]

theorem mem_keysOf_setKey {K V : Type} [DecidableEq K] (m : List (K × V)) (k : K) (v : V)
    (q : K) : q ∈ keysOf (setKey m k v) ↔ q = k ∨ q ∈ keysOf m := by
  induction m with
  | nil => simp [setKey, keysOf_cons, keysOf_nil]
  | cons kv rest ih =>
      obtain ⟨k0, v0⟩ := kv
      by_cases hk : k0 = k
      · rw [setKey_cons_eq v0 v rest hk, keysOf_cons, keysOf_cons]
        subst hk
        simp only [List.mem_cons]
        tauto
      · rw [setKey_cons_ne v0 v rest hk, keysOf_cons, keysOf_cons]
        simp only [List.mem_cons]
        rw [ih]
        tauto

theorem nodup_keysOf_setKey {K V : Type} [DecidableEq K] (m : List (K × V)) (k : K) (v : V)
    (h : (keysOf m).Nodup) : (keysOf (setKey m k v)).Nodup := by
  induction m with
  | nil => simp [setKey, keysOf_cons, keysOf_nil]
  | cons kv rest ih =>
      obtain ⟨k0, v0⟩ := kv
      rw [keysOf_cons, List.nodup_cons] at h
      by_cases hk : k0 = k
      · rw [setKey_cons_eq v0 v rest hk, keysOf_cons, List.nodup_cons]
        subst hk
        exact h
      · rw [setKey_cons_ne v0 v rest hk, keysOf_cons, List.nodup_cons]
        constructor
        · intro hmem
          rcases (mem_keysOf_setKey rest k v k0).1 hmem with h' | h'
          · exact hk h'
          · exact h.1 h'
        · exact ih h.2

theorem mem_extend_elim {K V : Type} [DecidableEq K] (m sub : List (K × V)) (e : K × V)
    (he : e ∈ extendEntries m sub) : e ∈ m ∨ e ∈ sub := by
  induction sub generalizing m with
  | nil => exact Or.inl he
  | cons kv rest ih =>
      rcases ih (setKey m kv.1 kv.2) (by simpa [extendEntries] using he) with h | h
      · rcases mem_setKey_elim m kv.1 kv.2 e h with h' | h'
        · exact Or.inr (by simp [h'])
        · exact Or.inl h'
      · exact Or.inr (by simp [h])

theorem mem_keysOf_extend {K V : Type} [DecidableEq K] (m sub : List (K × V)) (q : K) :
    q ∈ keysOf (extendEntries m sub) ↔ q ∈ keysOf m ∨ q ∈ keysOf sub := by
  induction sub generalizing m with
  | nil => simp [extendEntries, keysOf]
  | cons kv rest ih =>
      have : extendEntries m (kv :: rest) = extendEntries (setKey m kv.1 kv.2) rest := by
        simp [extendEntries]
      rw [this, ih, mem_keysOf_setKey]
      simp [keysOf]
      tauto

theorem nodup_keysOf_extend {K V : Type} [DecidableEq K] (m sub : List (K × V))
    (h : (keysOf m).Nodup) : (keysOf (extendEntries m sub)).Nodup := by
  induction sub generalizing m with
  | nil => exact h
  | cons kv rest ih =>
      have : extendEntries m (kv :: rest) = extendEntries (setKey m kv.1 kv.2) rest := by
        simp [extendEntries]
      rw [this]
      exact ih _ (nodup_keysOf_setKey m kv.1 kv.2 h)

theorem foldlBind_none {α β : Type} (f : β → α → Option α) (l : List β) :
    l.foldl (fun acc x => acc.bind (f x)) none = none := by
  induction l with
  | nil => rfl
  | cons x xs ih => simpa using ih

theorem foldlBind_ind {α β : Type} (f : β → α → Option α) (Q : α → Prop)
    (l : List β) (b r : α)
    (hb : Q b)
    (hstep : ∀ x ∈ l, ∀ a a', Q a → f x a = some a' → Q a')
    (h : l.foldl (fun acc x => acc.bind (f x)) (some b) = some r) : Q r := by
  induction l generalizing b with
  | nil =>
      simp at h
      exact h ▸ hb
  | cons x xs ih =>
      rw [List.foldl_cons] at h
      cases hfx : f x b with
      | none =>
          rw [show (some b).bind (f x) = none by simp [hfx]] at h
          rw [foldlBind_none] at h
          exact absurd h (by simp)
      | some b' =>
          rw [show (some b).bind (f x) = some b' by simp [hfx]] at h
          exact ih b' (hstep x (by simp) b b' hb hfx)
            (fun y hy => hstep y (by simp [hy])) h

/-- One step of the aggregation fold, abstracted over the subtree function `F`
and the inserted per-child value `g`. -/
def aggStep {P M : Type} [DecidableEq P] (cache : Store P M)
    (F : Node P M → Option (List (P × Nat))) (g : Node P M → Nat)
    (mc : M × P) (map : List (P × Nat)) : Option (List (P × Nat)) :=
  (storeGet cache mc.2).bind fun child_node =>
    (F child_node).map fun sub =>
      setKey (extendEntries map sub) mc.2 (g child_node)

theorem aggFold_eq {P M : Type} [DecidableEq P] (cache : Store P M)
    (F : Node P M → Option (List (P × Nat))) (g : Node P M → Nat)
    (children : List (M × P)) :
    aggFold cache F g children =
      children.foldl (fun acc mc => acc.bind (aggStep cache F g mc)) (some []) := rfl

theorem aggStep_some {P M : Type} [DecidableEq P] (cache : Store P M)
    (F : Node P M → Option (List (P × Nat))) (g : Node P M → Nat)
    (mc : M × P) (map r : List (P × Nat)) (h : aggStep cache F g mc map = some r) :
    ∃ cn sub, storeGet cache mc.2 = some cn ∧ F cn = some sub ∧
      r = setKey (extendEntries map sub) mc.2 (g cn) := by
  unfold aggStep at h
  cases hg : storeGet cache mc.2 with
  | none => rw [hg] at h; simp at h
  | some cn =>
      rw [hg, Option.some_bind] at h
      cases hf : F cn with
      | none => rw [hf] at h; simp at h
      | some sub =>
          rw [hf] at h
          simp at h
          exact ⟨cn, sub, rfl, hf, h.symm⟩

theorem foldlBind_keys_mono {P M : Type} [DecidableEq P] (cache : Store P M)
    (F : Node P M → Option (List (P × Nat))) (g : Node P M → Nat)
    (l : List (M × P)) (b r : List (P × Nat)) (q : P)
    (h : l.foldl (fun acc mc => acc.bind (aggStep cache F g mc)) (some b) = some r)
    (hq : q ∈ keysOf b) : q ∈ keysOf r := by
  refine foldlBind_ind _ (fun map => q ∈ keysOf map) l b r hq ?_ h
  intro x _ a a' ha hstep
  obtain ⟨cn, sub, _, _, rfl⟩ := aggStep_some cache F g x a a' hstep
  exact (mem_keysOf_setKey _ _ _ q).2 (Or.inr ((mem_keysOf_extend _ _ q).2 (Or.inl ha)))

theorem aggFold_children {P M : Type} [DecidableEq P] (cache : Store P M)
    (F : Node P M → Option (List (P × Nat))) (g : Node P M → Nat)
    (children : List (M × P)) (mp : List (P × Nat))
    (h : aggFold cache F g children = some mp) :
    ∀ mc ∈ children, ∃ cn sub, storeGet cache mc.2 = some cn ∧ F cn = some sub ∧
      mc.2 ∈ keysOf mp ∧ ∀ q ∈ keysOf sub, q ∈ keysOf mp := by
  rw [aggFold_eq] at h
  suffices aux : ∀ (l : List (M × P)) (b : List (P × Nat)),
      l.foldl (fun acc mc => acc.bind (aggStep cache F g mc)) (some b) = some mp →
      ∀ mc ∈ l, ∃ cn sub, storeGet cache mc.2 = some cn ∧ F cn = some sub ∧
        mc.2 ∈ keysOf mp ∧ ∀ q ∈ keysOf sub, q ∈ keysOf mp by
    exact aux children [] h
  intro l
  induction l with
  | nil => intro b _ mc hmc; simp at hmc
  | cons x xs ih =>
      intro b hfold mc hmc
      rw [List.foldl_cons, Option.some_bind] at hfold
      cases hstep : aggStep cache F g x b with
      | none =>
          rw [hstep, foldlBind_none] at hfold
          exact absurd hfold (by simp)
      | some b' =>
          rw [hstep] at hfold
          obtain ⟨cn, sub, hg', hf, hb'⟩ := aggStep_some cache F g x b b' hstep
          rcases List.mem_cons.1 hmc with rfl | hmc'
          · refine ⟨cn, sub, hg', hf, ?_, ?_⟩
            · refine foldlBind_keys_mono cache F g xs b' mp mc.2 hfold ?_
              rw [hb']
              exact (mem_keysOf_setKey _ _ _ _).2 (Or.inl rfl)
            · intro q hq
              refine foldlBind_keys_mono cache F g xs b' mp q hfold ?_
              rw [hb']
              exact (mem_keysOf_setKey _ _ _ q).2
                (Or.inr ((mem_keysOf_extend _ _ q).2 (Or.inr hq)))
          · exact ih b' hfold mc hmc'

theorem aggFold_entries {P M : Type} [DecidableEq P] (cache : Store P M)
    (F : Node P M → Option (List (P × Nat))) (g : Node P M → Nat)
    (children : List (M × P)) (mp : List (P × Nat))
    (h : aggFold cache F g children = some mp) :
    ∀ e ∈ mp, ∃ mc, mc ∈ children ∧ ∃ cn, storeGet cache mc.2 = some cn ∧
      (e = (mc.2, g cn) ∨ ∃ sub, F cn = some sub ∧ e ∈ sub) := by
  rw [aggFold_eq] at h
  refine foldlBind_ind _
    (fun map => ∀ e ∈ map, ∃ mc, mc ∈ children ∧ ∃ cn, storeGet cache mc.2 = some cn ∧
      (e = (mc.2, g cn) ∨ ∃ sub, F cn = some sub ∧ e ∈ sub))
    children [] mp (by simp) ?_ h
  intro x hx a a' ha hstep e he
  obtain ⟨cn, sub, hg', hf, rfl⟩ := aggStep_some cache F g x a a' hstep
  rcases mem_setKey_elim _ _ _ e he with he' | he'
  · exact ⟨x, hx, cn, hg', Or.inl he'⟩
  · rcases mem_extend_elim _ _ e he' with hm | hs
    · exact ha e hm
    · exact ⟨x, hx, cn, hg', Or.inr ⟨sub, hf, hs⟩⟩

theorem aggFold_nodup {P M : Type} [DecidableEq P] (cache : Store P M)
    (F : Node P M → Option (List (P × Nat))) (g : Node P M → Nat)
    (children : List (M × P)) (mp : List (P × Nat))
    (h : aggFold cache F g children = some mp) : (keysOf mp).Nodup := by
  rw [aggFold_eq] at h
  refine foldlBind_ind _ (fun map => (keysOf map).Nodup) children [] mp (by simp [keysOf]) ?_ h
  intro x _ a a' ha hstep
  obtain ⟨cn, sub, _, _, rfl⟩ := aggStep_some cache F g x a a' hstep
  exact nodup_keysOf_setKey _ _ _ (nodup_keysOf_extend _ _ ha)

/-- Every entry of a successful `tree_attempts` map is keyed by a descendant
position and carries that descendant's `local_attempts`. -/
theorem tree_attempts_sound {P M : Type} [DecidableEq P] (cache : Store P M) :
    ∀ (fuel : Nat) (node : Node P M) (mp : List (P × Nat)),
      tree_attempts cache fuel node = some mp →
      ∀ e ∈ mp, IsDescendant cache node e.1 ∧
        ∃ n, storeGet cache e.1 = some n ∧ e.2 = n.local_attempts := by
  intro fuel
  induction fuel with
  | zero => intro node mp h; exact absurd h (by simp [tree_attempts_zero])
  | succ fuel ih =>
      intro node mp h e he
      rw [tree_attempts_eq_aggFold] at h
      obtain ⟨mc, hmc, cn, hg, hcase⟩ := aggFold_entries cache _ _ _ mp h e he
      rcases hcase with rfl | ⟨sub, hf, hs⟩
      · refine ⟨⟨1, ?_⟩, cn, hg, rfl⟩
        exact @DescN.base _ _ _ _ _ mc.1 _ (by simpa using hmc)
      · obtain ⟨⟨k, hd⟩, hval⟩ := ih cn sub hf e hs
        exact ⟨⟨k + 1, @DescN.step _ _ _ _ _ mc.1 _ _ _ _ (by simpa using hmc) hg hd⟩, hval⟩

/-- Every descendant position appears among the keys of a successful
`tree_attempts` map. -/
theorem tree_attempts_complete {P M : Type} [DecidableEq P] {cache : Store P M}
    {node : Node P M} {k : Nat} {p : P} (hd : DescN cache node k p) :
    ∀ (fuel : Nat) (mp : List (P × Nat)),
      tree_attempts cache fuel node = some mp → p ∈ keysOf mp := by
  induction hd with
  | base hmc =>
      intro fuel mp h
      cases fuel with
      | zero => exact absurd h (by simp [tree_attempts_zero])
      | succ fuel =>
          rw [tree_attempts_eq_aggFold] at h
          obtain ⟨cn, sub, _, _, hmem, _⟩ :=
            aggFold_children cache _ _ _ mp h _ hmc
          exact hmem
  | step hmc hc _ ih =>
      intro fuel mp h
      cases fuel with
      | zero => exact absurd h (by simp [tree_attempts_zero])
      | succ fuel =>
          rw [tree_attempts_eq_aggFold] at h
          obtain ⟨cn', sub, hg', hf, _, hsubkeys⟩ :=
            aggFold_children cache _ _ _ mp h _ hmc
          rw [hc] at hg'
          cases Option.some.inj hg'
          exact hsubkeys _ (ih fuel sub hf)

/-- The length of any store-resolvable child chain is bounded by any fuel on
which `tree_attempts` succeeds (so success implies the subgraph is acyclic). -/
theorem tree_attempts_chain_bound {P M : Type} [DecidableEq P] {cache : Store P M}
    {node : Node P M} {k : Nat} {p : P} (hd : DescN cache node k p) :
    ∀ (fuel : Nat) (mp : List (P × Nat)),
      tree_attempts cache fuel node = some mp → k < fuel := by
  induction hd with
  | base hmc =>
      intro fuel mp h
      cases fuel with
      | zero => exact absurd h (by simp [tree_attempts_zero])
      | succ fuel =>
          rw [tree_attempts_eq_aggFold] at h
          obtain ⟨cn, sub, _, hf, _, _⟩ := aggFold_children cache _ _ _ mp h _ hmc
          cases fuel with
          | zero => exact absurd hf (by simp [tree_attempts_zero])
          | succ fuel => omega
  | step hmc hc _ ih =>
      intro fuel mp h
      cases fuel with
      | zero => exact absurd h (by simp [tree_attempts_zero])
      | succ fuel =>
          rw [tree_attempts_eq_aggFold] at h
          obtain ⟨cn', sub, hg', hf, _, _⟩ := aggFold_children cache _ _ _ mp h _ hmc
          rw [hc] at hg'
          cases Option.some.inj hg'
          have := ih fuel sub hf
          omega

/-- When `tree_attempts` succeeds on a node stored at position `p0`, that
position is not its own descendant: otherwise arbitrarily long chains would
exist, contradicting the chain bound. -/
theorem tree_attempts_not_self {P M : Type} [DecidableEq P] {cache : Store P M}
    {node : Node P M} {p0 : P} {fuel : Nat} {mp : List (P × Nat)}
    (hp0 : storeGet cache p0 = some node)
    (h : tree_attempts cache fuel node = some mp) :
    ¬ IsDescendant cache node p0 := by
  rintro ⟨k, hd⟩
  have hk1 : 1 ≤ k := DescN_pos hd
  have iterate : ∀ n : Nat, DescN cache node (k + n * k) p0 := by
    intro n
    induction n with
    | zero => simpa using hd
    | succ n ihn =>
        have h' : DescN cache node (k + (k + n * k)) p0 := DescN_comp hd hp0 ihn
        have harith : k + (n + 1) * k = k + (k + n * k) := by ring
        rw [harith]
        exact h'
  have hbig := tree_attempts_chain_bound (iterate fuel) fuel mp h
  have hmul : fuel ≤ fuel * k := Nat.le_mul_of_pos_right fuel hk1
  omega

/-- Summing the values of a map with no duplicate keys whose values are a
function of their keys is the same as summing that function over the key set. -/
theorem valuesSum_eq_finsetSum {P : Type} [DecidableEq P] (m : List (P × Nat))
    (f : P → Nat) (hnd : (keysOf m).Nodup) (hv : ∀ e ∈ m, e.2 = f e.1) :
    valuesSumExact m = ∑ p in (keysOf m).toFinset, f p := by
  induction m with
  | nil => simp [valuesSumExact, keysOf_nil]
  | cons kv rest ih =>
      rw [keysOf_cons, List.nodup_cons] at hnd
      have hmem : kv.1 ∉ (keysOf rest).toFinset := by
        simpa using hnd.1
      rw [keysOf_cons]
      simp only [List.toFinset_cons]
      rw [Finset.sum_insert hmem]
      have hkv : kv.2 = f kv.1 := hv kv (by simp)
      have hrest := ih hnd.2 (fun e he => hv e (by simp [he]))
      simp only [valuesSumExact, List.map_cons, List.sum_cons] at hrest ⊢
      rw [hkv, hrest]

theorem tree_attempts_nodup {P M : Type} [DecidableEq P] {cache : Store P M}
    {fuel : Nat} {node : Node P M} {mp : List (P × Nat)}
    (h : tree_attempts cache fuel node = some mp) : (keysOf mp).Nodup := by
  cases fuel with
  | zero => exact absurd h (by simp [tree_attempts_zero])
  | succ fuel =>
      rw [tree_attempts_eq_aggFold] at h
      exact aggFold_nodup cache _ _ _ mp h

theorem valuesSum8_eq_mod {K : Type} (m : List (K × Nat)) :
    valuesSum8 m = valuesSumExact m % 256 := rfl

/-- Overflow example: a root whose two chained descendants have
`local_attempts` 200 and 56, so the exact descendant sum is 256 while the
`u8` aggregate wraps to 0. -/
def c1Node2 : Node Nat Nat :=
  { player := .one, local_attempts := 56, local_wins := 0, local_losses := 0,
    children := [], parents := [(1, 1)] }

def c1Node1 : Node Nat Nat :=
  { player := .two, local_attempts := 200, local_wins := 0, local_losses := 0,
    children := [(1, 2)], parents := [(0, 0)] }

def c1Root : Node Nat Nat :=
  { player := .one, local_attempts := 0, local_wins := 0, local_losses := 0,
    children := [(0, 1)], parents := [] }

def c1St : Store Nat Nat := [(0, c1Root), (1, c1Node1), (2, c1Node2)]

/-- C1 counterexample: in the store `c1St` (root at position 0, descendant
chain 1 → 2 with `local_attempts` 200 and 56, every edge resolving to a live
record), `Node::attempts` returns 0 while the sum of `local_attempts` over the
distinct descendant set {1, 2} is 256: the `u8` aggregate does not equal the
(mathematical) sum of the local counters, refuting the claim as stated. -/
theorem C1_attempts_overflow_cex :
    ¬ (∀ a : Nat, attempts c1St 3 c1Root = some a →
        ∃ s : Finset Nat, (∀ p, p ∈ s ↔ IsDescendant c1St c1Root p) ∧
          a = ∑ p in s, localAttemptsAt c1St p) := by
  intro hclaim
  obtain ⟨s, hs, hsum⟩ := hclaim 0 (by decide)
  have h1 : (1 : Nat) ∈ s := (hs 1).2 ⟨1, @DescN.base _ _ _ _ _ 0 _ (by decide)⟩
  have h2 : (2 : Nat) ∈ s :=
    (hs 2).2 ⟨2, @DescN.step _ _ _ _ _ 0 1 c1Node1 _ _ (by decide) (by decide)
      (@DescN.base _ _ _ _ _ 1 _ (by decide))⟩
  have hmp : tree_attempts c1St 3 c1Root = some [(2, 56), (1, 200)] := by decide
  have hsub : ∀ p ∈ s, p = 1 ∨ p = 2 := by
    intro p hp
    obtain ⟨k, hd⟩ := (hs p).1 hp
    have hkeys := tree_attempts_complete hd 3 _ hmp
    simp [keysOf] at hkeys
    tauto
  have hseq : s = ({1, 2} : Finset Nat) := by
    apply Finset.ext
    intro p
    constructor
    · intro hp
      rcases hsub p hp with rfl | rfl <;> simp
    · intro hp
      simp at hp
      rcases hp with rfl | rfl
      · exact h1
      · exact h2
  rw [hseq] at hsum
  rw [Finset.sum_insert (by decide), Finset.sum_singleton] at hsum
  have e1 : localAttemptsAt c1St 1 = 200 := by decide
  have e2 : localAttemptsAt c1St 2 = 56 := by decide
  rw [e1, e2] at hsum
  omega

/-- C1 (amended): whenever `Node::attempts` completes (all edges resolve to
live records and the recursion terminates), its value is the sum of
`local_attempts` over the distinct positions of the node's descendant set —
each transposed position counted once even when reachable by multiple paths,
the node's own position excluded — reduced modulo `2^8` (the `u8` summation of
the code); the claim as stated holds exactly when that sum does not wrap. -/
theorem C1_attempts_desc_sum_mod256 {P M : Type} [DecidableEq P]
    (cache : Store P M) (fuel : Nat) (node : Node P M) (a : Nat)
    (h : attempts cache fuel node = some a) :
    ∃ s : Finset P,
      (∀ p, p ∈ s ↔ IsDescendant cache node p) ∧
      a = (∑ p in s, localAttemptsAt cache p) % 256 ∧
      (∀ p0, storeGet cache p0 = some node → p0 ∉ s) := by
  obtain ⟨mp, hmp, ha⟩ := Option.map_eq_some'.1 h
  have hchar : ∀ p, p ∈ keysOf mp ↔ IsDescendant cache node p := by
    intro p
    constructor
    · intro hp
      obtain ⟨e, he, hfst⟩ := List.mem_map.1 hp
      exact hfst ▸ (tree_attempts_sound cache fuel node mp hmp e he).1
    · rintro ⟨k, hd⟩
      exact tree_attempts_complete hd fuel mp hmp
  refine ⟨(keysOf mp).toFinset, ?_, ?_, ?_⟩
  · intro p
    rw [List.mem_toFinset]
    exact hchar p
  · have hvals : ∀ e ∈ mp, e.2 = localAttemptsAt cache e.1 := by
      intro e he
      obtain ⟨_, n, hn, hval⟩ := tree_attempts_sound cache fuel node mp hmp e he
      simp [localAttemptsAt, hn, hval]
    rw [← ha, valuesSum8_eq_mod,
      valuesSum_eq_finsetSum mp (localAttemptsAt cache) (tree_attempts_nodup hmp) hvals]
  · intro p0 hp0 hmem
    exact tree_attempts_not_self hp0 hmp ((hchar p0).1 (List.mem_toFinset.1 hmem))

/-- C1 witness: the amended theorem applied to the concrete overflow store,
where the `u8` aggregate is 0 and the descendant sum is 256 ≡ 0 (mod 256). -/
theorem C1_attempts_desc_sum_mod256_witness :
    attempts c1St 3 c1Root = some 0 ∧
      ∃ s : Finset Nat,
        (∀ p, p ∈ s ↔ IsDescendant c1St c1Root p) ∧
        0 = (∑ p in s, localAttemptsAt c1St p) % 256 ∧
        (∀ p0, storeGet c1St p0 = some c1Root → p0 ∉ s) :=
  ⟨by decide, C1_attempts_desc_sum_mod256 c1St 3 c1Root 0 (by decide)⟩

/-- C9: the per-node statistics are `u8` counters and every aggregate is a
`u8` summation: whenever the three subtree maps are computed, `attempts`,
`wins` and `losses` return the exact reference sums of those maps reduced
modulo `2^8`; for `attempts` the reference sum is exactly the sum of
`local_attempts` over the distinct descendant set; each aggregate equals its
exact reference sum precisely when that sum does not exceed 255. -/
theorem C9_aggregates_are_u8_sums {P M : Type} [DecidableEq P]
    (cache : Store P M) (fuel : Nat) (node : Node P M)
    (mpa mpw mpl : List (P × Nat))
    (ha : tree_attempts cache fuel node = some mpa)
    (hw : tree_wins cache fuel node = some mpw)
    (hl : tree_losses cache fuel node = some mpl) :
    (∃ s : Finset P, (∀ p, p ∈ s ↔ IsDescendant cache node p) ∧
        valuesSumExact mpa = ∑ p in s, localAttemptsAt cache p) ∧
    attempts cache fuel node = some (valuesSumExact mpa % 256) ∧
    wins cache fuel node = some (valuesSumExact mpw % 256) ∧
    losses cache fuel node = some (valuesSumExact mpl % 256) ∧
    (valuesSumExact mpa ≤ 255 → attempts cache fuel node = some (valuesSumExact mpa)) ∧
    (255 < valuesSumExact mpa → attempts cache fuel node ≠ some (valuesSumExact mpa)) ∧
    (valuesSumExact mpw ≤ 255 → wins cache fuel node = some (valuesSumExact mpw)) ∧
    (255 < valuesSumExact mpw → wins cache fuel node ≠ some (valuesSumExact mpw)) ∧
    (valuesSumExact mpl ≤ 255 → losses cache fuel node = some (valuesSumExact mpl)) ∧
    (255 < valuesSumExact mpl → losses cache fuel node ≠ some (valuesSumExact mpl)) := by
  have hatt : attempts cache fuel node = some (valuesSumExact mpa % 256) := by
    simp [attempts, ha, valuesSum8_eq_mod]
  have hwin : wins cache fuel node = some (valuesSumExact mpw % 256) := by
    simp [wins, hw, valuesSum8_eq_mod]
  have hlos : losses cache fuel node = some (valuesSumExact mpl % 256) := by
    simp [losses, hl, valuesSum8_eq_mod]
  refine ⟨?_, hatt, hwin, hlos, ?_, ?_, ?_, ?_, ?_, ?_⟩
  · have hvals : ∀ e ∈ mpa, e.2 = localAttemptsAt cache e.1 := by
      intro e he
      obtain ⟨_, n, hn, hval⟩ := tree_attempts_sound cache fuel node mpa ha e he
      simp [localAttemptsAt, hn, hval]
    refine ⟨(keysOf mpa).toFinset, ?_, ?_⟩
    · intro p
      rw [List.mem_toFinset]
      constructor
      · intro hp
        obtain ⟨e, he, hfst⟩ := List.mem_map.1 hp
        exact hfst ▸ (tree_attempts_sound cache fuel node mpa ha e he).1
      · rintro ⟨k, hd⟩
        exact tree_attempts_complete hd fuel mpa ha
    · exact valuesSum_eq_finsetSum mpa (localAttemptsAt cache) (tree_attempts_nodup ha) hvals
  · intro hle
    rw [hatt, Nat.mod_eq_of_lt (by omega)]
  · intro hgt hcontra
    rw [hatt] at hcontra
    have := Option.some.inj hcontra
    have hlt : valuesSumExact mpa % 256 < 256 := Nat.mod_lt _ (by omega)
    omega
  · intro hle
    rw [hwin, Nat.mod_eq_of_lt (by omega)]
  · intro hgt hcontra
    rw [hwin] at hcontra
    have := Option.some.inj hcontra
    have hlt : valuesSumExact mpw % 256 < 256 := Nat.mod_lt _ (by omega)
    omega
  · intro hle
    rw [hlos, Nat.mod_eq_of_lt (by omega)]
  · intro hgt hcontra
    rw [hlos] at hcontra
    have := Option.some.inj hcontra
    have hlt : valuesSumExact mpl % 256 < 256 := Nat.mod_lt _ (by omega)
    omega

/-- C9 witness: the theorem applied to the overflow store `c1St`, whose exact
descendant attempt sum 256 wraps to the `u8` aggregate 0. -/
theorem C9_aggregates_are_u8_sums_witness :
    tree_attempts c1St 3 c1Root = some [(2, 56), (1, 200)] ∧
      ((∃ s : Finset Nat, (∀ p, p ∈ s ↔ IsDescendant c1St c1Root p) ∧
          valuesSumExact [(2, 56), (1, 200)] = ∑ p in s, localAttemptsAt c1St p) ∧
        attempts c1St 3 c1Root = some (valuesSumExact [(2, 56), (1, 200)] % 256) ∧
        wins c1St 3 c1Root = some (valuesSumExact [(2, 0), (1, 0)] % 256) ∧
        losses c1St 3 c1Root = some (valuesSumExact [(2, 0), (1, 0)] % 256) ∧
        (valuesSumExact [(2, 56), (1, 200)] ≤ 255 →
          attempts c1St 3 c1Root = some (valuesSumExact [(2, 56), (1, 200)])) ∧
        (255 < valuesSumExact [(2, 56), (1, 200)] →
          attempts c1St 3 c1Root ≠ some (valuesSumExact [(2, 56), (1, 200)])) ∧
        (valuesSumExact [(2, 0), (1, 0)] ≤ 255 →
          wins c1St 3 c1Root = some (valuesSumExact [(2, 0), (1, 0)])) ∧
        (255 < valuesSumExact [(2, 0), (1, 0)] →
          wins c1St 3 c1Root ≠ some (valuesSumExact [(2, 0), (1, 0)])) ∧
        (valuesSumExact [(2, 0), (1, 0)] ≤ 255 →
          losses c1St 3 c1Root = some (valuesSumExact [(2, 0), (1, 0)])) ∧
        (255 < valuesSumExact [(2, 0), (1, 0)] →
          losses c1St 3 c1Root ≠ some (valuesSumExact [(2, 0), (1, 0)]))) :=
  ⟨by decide, C9_aggregates_are_u8_sums c1St 3 c1Root
    [(2, 56), (1, 200)] [(2, 0), (1, 0)] [(2, 0), (1, 0)]
    (by decide) (by decide) (by decide)⟩

theorem setKey_sum_of_not_mem {K : Type} [DecidableEq K] (m : List (K × Nat)) (k : K)
    (v : Nat) (hk : k ∉ keysOf m) :
    valuesSumExact (setKey m k v) = valuesSumExact m + v := by
  induction m with
  | nil => simp [setKey, valuesSumExact]
  | cons kv rest ih =>
      obtain ⟨k0, v0⟩ := kv
      rw [keysOf_cons, List.mem_cons] at hk
      push_neg at hk
      rw [setKey_cons_ne v0 v rest (fun h => hk.1 h.symm)]
      simp only [valuesSumExact, List.map_cons, List.sum_cons] at ih ⊢
      rw [ih hk.2]
      omega

theorem extend_sum_disjoint {K : Type} [DecidableEq K] (sub : List (K × Nat)) :
    ∀ (m : List (K × Nat)), (∀ q ∈ keysOf sub, q ∉ keysOf m) → (keysOf sub).Nodup →
    valuesSumExact (extendEntries m sub) = valuesSumExact m + valuesSumExact sub := by
  induction sub with
  | nil => intro m _ _; simp [extendEntries, valuesSumExact]
  | cons kv rest ih =>
      intro m hdisj hnd
      rw [keysOf_cons, List.nodup_cons] at hnd
      have hstep : extendEntries m (kv :: rest) =
          extendEntries (setKey m kv.1 kv.2) rest := by
        simp [extendEntries]
      rw [hstep]
      have hk1 : kv.1 ∉ keysOf m := hdisj kv.1 (by rw [keysOf_cons]; simp)
      have hdisj' : ∀ q ∈ keysOf rest, q ∉ keysOf (setKey m kv.1 kv.2) := by
        intro q hq hmem
        rcases (mem_keysOf_setKey m kv.1 kv.2 q).1 hmem with h | h
        · exact hnd.1 (h ▸ hq)
        · exact hdisj q (by rw [keysOf_cons]; simp [hq]) h
      rw [ih (setKey m kv.1 kv.2) hdisj' hnd.2, setKey_sum_of_not_mem m kv.1 kv.2 hk1]
      simp only [valuesSumExact, List.map_cons, List.sum_cons]
      omega

theorem tree_wl_nodup {P M : Type} [DecidableEq P] {cache : Store P M}
    {isWins : Bool} {fuel : Nat} {node : Node P M} {mp : List (P × Nat)}
    (h : tree_wl cache isWins fuel node = some mp) : (keysOf mp).Nodup := by
  cases fuel with
  | zero => exact absurd h (by simp [tree_wl_zero])
  | succ fuel =>
      rw [tree_wl_eq_aggFold] at h
      exact aggFold_nodup cache _ _ _ mp h

/-- Splitting the aggregate sum child by child: when the children's key
closures (child position together with its subtree keys) are pairwise
disjoint and no child occurs in its own subtree map, the value sum of the
fold is the sum over children of the inserted value plus the subtree sum. -/
theorem aggFold_sum_split {P M : Type} [DecidableEq P] (cache : Store P M)
    (F : Node P M → Option (List (P × Nat))) (g : Node P M → Nat)
    (cn : M × P → Node P M) (sub : M × P → List (P × Nat)) :
    ∀ (l : List (M × P)) (b mp : List (P × Nat)),
      (∀ mc ∈ l, storeGet cache mc.2 = some (cn mc) ∧ F (cn mc) = some (sub mc)) →
      (∀ mc ∈ l, (keysOf (sub mc)).Nodup) →
      (∀ mc ∈ l, mc.2 ∉ keysOf (sub mc)) →
      l.Pairwise (fun x y => ∀ q ∈ (x.2 :: keysOf (sub x)), q ∉ (y.2 :: keysOf (sub y))) →
      (∀ mc ∈ l, ∀ q ∈ (mc.2 :: keysOf (sub mc)), q ∉ keysOf b) →
      l.foldl (fun acc mc => acc.bind (aggStep cache F g mc)) (some b) = some mp →
      valuesSumExact mp =
          valuesSumExact b + (l.map (fun mc => g (cn mc) + valuesSumExact (sub mc))).sum ∧
        (∀ q ∈ keysOf mp, q ∈ keysOf b ∨ ∃ mc ∈ l, q ∈ (mc.2 :: keysOf (sub mc))) := by
  intro l
  induction l with
  | nil =>
      intro b mp _ _ _ _ _ hfold
      simp at hfold
      subst hfold
      exact ⟨by simp, fun q hq => Or.inl hq⟩
  | cons x xs ih =>
      intro b mp hres hnd hself hpair hbdisj hfold
      rw [List.foldl_cons, Option.some_bind] at hfold
      have hx := hres x (by simp)
      have hstepx : aggStep cache F g x b =
          some (setKey (extendEntries b (sub x)) x.2 (g (cn x))) := by
        unfold aggStep
        rw [hx.1, Option.some_bind, hx.2]
        rfl
      rw [hstepx] at hfold
      have hxb : x.2 ∉ keysOf b := hbdisj x (by simp) x.2 (by simp)
      have hsubb : ∀ q ∈ keysOf (sub x), q ∉ keysOf b := by
        intro q hq
        exact hbdisj x (by simp) q (by simp [hq])
      have hsum_ext : valuesSumExact (extendEntries b (sub x)) =
          valuesSumExact b + valuesSumExact (sub x) :=
        extend_sum_disjoint (sub x) b hsubb (hnd x (by simp))
      have hxext : x.2 ∉ keysOf (extendEntries b (sub x)) := by
        intro hmem
        rcases (mem_keysOf_extend b (sub x) x.2).1 hmem with h | h
        · exact hxb h
        · exact hself x (by simp) h
      have hsum_b' : valuesSumExact (setKey (extendEntries b (sub x)) x.2 (g (cn x))) =
          valuesSumExact b + valuesSumExact (sub x) + g (cn x) := by
        rw [setKey_sum_of_not_mem _ _ _ hxext, hsum_ext]
      have hkeys_b' : ∀ q, q ∈ keysOf (setKey (extendEntries b (sub x)) x.2 (g (cn x))) →
          q ∈ keysOf b ∨ q ∈ (x.2 :: keysOf (sub x)) := by
        intro q hq
        rcases (mem_keysOf_setKey _ _ _ q).1 hq with h | h
        · exact Or.inr (by simp [h])
        · rcases (mem_keysOf_extend _ _ q).1 h with h' | h'
          · exact Or.inl h'
          · exact Or.inr (by simp [h'])
      have hpair' := (List.pairwise_cons.1 hpair)
      have hbdisj' : ∀ mc ∈ xs, ∀ q ∈ (mc.2 :: keysOf (sub mc)),
          q ∉ keysOf (setKey (extendEntries b (sub x)) x.2 (g (cn x))) := by
        intro mc hmc q hq hmem
        rcases hkeys_b' q hmem with h | h
        · exact hbdisj mc (by simp [hmc]) q hq h
        · exact hpair'.1 mc hmc q h hq
      obtain ⟨hsum, hkeys⟩ := ih _ mp
        (fun mc hmc => hres mc (by simp [hmc]))
        (fun mc hmc => hnd mc (by simp [hmc]))
        (fun mc hmc => hself mc (by simp [hmc]))
        hpair'.2 hbdisj' hfold
      constructor
      · rw [hsum, hsum_b']
        simp only [List.map_cons, List.sum_cons]
        omega
      · intro q hq
        rcases hkeys q hq with h | ⟨mc, hmc, hqc⟩
        · rcases hkeys_b' q h with h' | h'
          · exact Or.inl h'
          · exact Or.inr ⟨x, by simp, h'⟩
        · exact Or.inr ⟨mc, by simp [hmc], hqc⟩

theorem tree_wins_eq_aggFold {P M : Type} [DecidableEq P]
    (cache : Store P M) (fuel : Nat) (node : Node P M) :
    tree_wins cache (fuel + 1) node =
      aggFold cache (tree_losses cache fuel) Node.local_losses node.children := rfl

theorem tree_losses_eq_aggFold {P M : Type} [DecidableEq P]
    (cache : Store P M) (fuel : Nat) (node : Node P M) :
    tree_losses cache (fuel + 1) node =
      aggFold cache (tree_wins cache fuel) Node.local_wins node.children := rfl

/-- A two-node store: the root (position 0) has one known child (position 1)
that recorded one rollout loss locally and has no children of its own. -/
def c2Child : Node Nat Nat :=
  { player := .two, local_attempts := 1, local_wins := 0, local_losses := 1,
    children := [], parents := [(5, 0)] }

def c2Root : Node Nat Nat :=
  { player := .one, local_attempts := 0, local_wins := 0, local_losses := 0,
    children := [(5, 1)], parents := [] }

def c2St : Store Nat Nat := [(0, c2Root), (1, c2Child)]

/-- C2 counterexample: in `c2St` the root's only child carries
`local_losses = 1` and has no children, so `Node::wins` on the root is 1 while
the sum over the root's children of their aggregate loss counts
(`Node::losses`, which excludes the child's own `local_losses`) is 0: the
aggregate win count is not the sum of the children's aggregate loss counts. -/
theorem C2_wins_not_children_losses_cex :
    storeGet c2St 0 = some c2Root ∧ c2Root.children = [(5, 1)] ∧
    storeGet c2St 1 = some c2Child ∧
    wins c2St 2 c2Root = some 1 ∧ losses c2St 1 c2Child = some 0 ∧
    (1 : Nat) ≠ 0 := by decide

/-- C2 (amended): a node's aggregate win count is the `u8` sum over its known
children of the child's own `local_losses` plus the exact sum of the child's
`tree_losses` map (and symmetrically for losses), provided the children's key
closures are pairwise disjoint and no child occurs in its own subtree map (no
transpositions inside the subtree); the child's aggregate loss count is that
subtree sum reduced mod `2^8`, so the original claim drops the child's own
local term. -/
theorem C2_wins_losses_children_split {P M : Type} [DecidableEq P]
    (cache : Store P M) (fuel : Nat) (node : Node P M)
    (mpw mpl : List (P × Nat)) (cn : M × P → Node P M)
    (subL subW : M × P → List (P × Nat))
    (hw : tree_wins cache (fuel + 1) node = some mpw)
    (hl : tree_losses cache (fuel + 1) node = some mpl)
    (hres : ∀ mc ∈ node.children, storeGet cache mc.2 = some (cn mc) ∧
      tree_losses cache fuel (cn mc) = some (subL mc) ∧
      tree_wins cache fuel (cn mc) = some (subW mc))
    (hselfL : ∀ mc ∈ node.children, mc.2 ∉ keysOf (subL mc))
    (hselfW : ∀ mc ∈ node.children, mc.2 ∉ keysOf (subW mc))
    (hpairL : node.children.Pairwise
      (fun x y => ∀ q ∈ (x.2 :: keysOf (subL x)), q ∉ (y.2 :: keysOf (subL y))))
    (hpairW : node.children.Pairwise
      (fun x y => ∀ q ∈ (x.2 :: keysOf (subW x)), q ∉ (y.2 :: keysOf (subW y)))) :
    wins cache (fuel + 1) node = some
        ((node.children.map fun mc => (cn mc).local_losses + valuesSumExact (subL mc)).sum
          % 256) ∧
    losses cache (fuel + 1) node = some
        ((node.children.map fun mc => (cn mc).local_wins + valuesSumExact (subW mc)).sum
          % 256) ∧
    (∀ mc ∈ node.children,
      losses cache fuel (cn mc) = some (valuesSumExact (subL mc) % 256) ∧
      wins cache fuel (cn mc) = some (valuesSumExact (subW mc) % 256)) := by
  have hw' := hw
  rw [tree_wins_eq_aggFold, aggFold_eq] at hw'
  obtain ⟨hsw, _⟩ := aggFold_sum_split cache (tree_losses cache fuel) Node.local_losses
    cn subL node.children [] mpw
    (fun mc hmc => ⟨(hres mc hmc).1, (hres mc hmc).2.1⟩)
    (fun mc hmc => tree_wl_nodup (hres mc hmc).2.1)
    hselfL hpairL (by simp [keysOf_nil]) hw'
  have hl' := hl
  rw [tree_losses_eq_aggFold, aggFold_eq] at hl'
  obtain ⟨hsl, _⟩ := aggFold_sum_split cache (tree_wins cache fuel) Node.local_wins
    cn subW node.children [] mpl
    (fun mc hmc => ⟨(hres mc hmc).1, (hres mc hmc).2.2⟩)
    (fun mc hmc => tree_wl_nodup (hres mc hmc).2.2)
    hselfW hpairW (by simp [keysOf_nil]) hl'
  refine ⟨?_, ?_, ?_⟩
  · simp only [wins, tree_wins] at hw ⊢
    rw [show tree_wl cache true (fuel + 1) node = some mpw from hw]
    simp only [Option.map_some', valuesSum8_eq_mod, hsw]
    simp [valuesSumExact]
  · simp only [losses, tree_losses] at hl ⊢
    rw [show tree_wl cache false (fuel + 1) node = some mpl from hl]
    simp only [Option.map_some', valuesSum8_eq_mod, hsl]
    simp [valuesSumExact]
  · intro mc hmc
    constructor
    · simp [losses, (hres mc hmc).2.1, valuesSum8_eq_mod]
    · simp [wins, (hres mc hmc).2.2, valuesSum8_eq_mod]

/-- C2 witness: the amended theorem applied to the two-node store `c2St`:
the root's aggregate win count is the child's `local_losses` (1) plus the
child's (empty) subtree loss sum, not the child's aggregate loss count 0. -/
theorem C2_wins_losses_children_split_witness :
    tree_wins c2St 2 c2Root = some [(1, 1)] ∧
      (wins c2St 2 c2Root = some
          ((c2Root.children.map fun mc =>
            ((fun _ => c2Child) mc).local_losses +
              valuesSumExact ((fun _ => ([] : List (Nat × Nat))) mc)).sum % 256) ∧
        losses c2St 2 c2Root = some
          ((c2Root.children.map fun mc =>
            ((fun _ => c2Child) mc).local_wins +
              valuesSumExact ((fun _ => ([] : List (Nat × Nat))) mc)).sum % 256) ∧
        (∀ mc ∈ c2Root.children,
          losses c2St 1 ((fun _ => c2Child) mc) = some
            (valuesSumExact ((fun _ => ([] : List (Nat × Nat))) mc) % 256) ∧
          wins c2St 1 ((fun _ => c2Child) mc) = some
            (valuesSumExact ((fun _ => ([] : List (Nat × Nat))) mc) % 256))) :=
  ⟨by decide,
    C2_wins_losses_children_split c2St 1 c2Root [(1, 1)] [(1, 0)]
      (fun _ => c2Child) (fun _ => []) (fun _ => [])
      (by decide) (by decide) (by decide) (by decide) (by decide)
      (by simp [c2Root]) (by simp [c2Root])⟩

/-- The largest finite `f64` value (`std::f64::MAX`), as an exact real:
`(2^53 - 1) * 2^971`. -/
noncomputable def f64MAX : ℝ := (2 ^ 53 - 1) * 2 ^ 971

/-- `Node::uct_value`: if the node was never explored (aggregate attempts 0)
the score is `f64::MAX`; otherwise it is
`wins/attempts + c * sqrt(ln(parent_attempts)/attempts)`.  `f64` scores are
modelled by exact reals.  When `parent_attempts = 0` and `attempts ≠ 0` the
code computes `sqrt(ln 0 / attempts) = sqrt(-inf) = NaN`, which the
`OrdF64::new` fail-fast in the caller turns into an abort: that case is
modelled by `none`.  An inner aggregate failure (dangling pointer) is also
`none`. -/
noncomputable def uct_value {P M : Type} [DecidableEq P] (cache : Store P M)
    (fuel : Nat) (node : Node P M) (parent_attempts : Nat) (c : ℝ) : Option ℝ :=
  (attempts cache fuel node).bind fun a =>
    if a = 0 then some f64MAX
    else
      (wins cache fuel node).bind fun w =>
        if parent_attempts = 0 then none
        else some ((w : ℝ) / (a : ℝ) + c * Real.sqrt (Real.log (parent_attempts : ℝ) / (a : ℝ)))

/-- Rust's `Iterator::max_by_key`: fold keeping the current maximum,
replacing it whenever a later key compares greater **or equal** — so among
several maximal elements the LAST one is returned. -/
noncomputable def maxByKeyLast {A : Type} (l : List (A × ℝ)) : Option (A × ℝ) :=
  l.foldl
    (fun acc x =>
      match acc with
      | none => some x
      | some y => if y.2 ≤ x.2 then some x else some y)
    none

/-- `Node::choose_move_by_uct_value`: each legal move is scored — through the
child's `uct_value` when a known child exists, as `f64::MAX` otherwise — and
the maximal score wins (`max_by_key`, last maximum on ties).  The outer
`Option` is the abort channel (dangling pointer, NaN fail-fast, fuel); the
inner `Option` is the Rust return value (`none` iff there are no legal
moves). -/
noncomputable def choose_move_by_uct_value {P M : Type} [DecidableEq P] [DecidableEq M]
    (cache : Store P M) (fuel : Nat) (c : ℝ) (node : Node P M)
    (legal_moves : List M) : Option (Option M) :=
  (attempts cache fuel node).bind fun att =>
    (legal_moves.mapM fun mv =>
      match lookupKey node.children mv with
      | some child =>
          (storeGet cache child).bind fun child_node =>
            (uct_value cache fuel child_node att c).map fun u => (mv, u)
      | none => some (mv, f64MAX)).map fun scored =>
      (maxByKeyLast scored).map Prod.fst

theorem maxByKeyLast_aux {A : Type} :
    ∀ (l : List (A × ℝ)) (y0 y : A × ℝ),
      l.foldl
        (fun acc x =>
          match acc with
          | none => some x
          | some z => if z.2 ≤ x.2 then some x else some z)
        (some y0) = some y →
      (y = y0 ∧ ∀ e ∈ l, e.2 < y0.2) ∨
      (∃ l1 l2, l = l1 ++ y :: l2 ∧ y0.2 ≤ y.2 ∧
        (∀ e ∈ l1, e.2 ≤ y.2) ∧ (∀ e ∈ l2, e.2 < y.2)) := by
  intro l
  induction l with
  | nil =>
      intro y0 y h
      simp at h
      exact Or.inl ⟨h.symm, by simp⟩
  | cons x xs ih =>
      intro y0 y h
      rw [List.foldl_cons] at h
      by_cases hle : y0.2 ≤ x.2
      · rw [show (match (some y0 : Option (A × ℝ)) with
            | none => some x
            | some z => if z.2 ≤ x.2 then some x else some z) = some x by
            simp [hle]] at h
        rcases ih x y h with ⟨rfl, hall⟩ | ⟨l1, l2, heq, hy0, hl1, hl2⟩
        · exact Or.inr ⟨[], xs, by simp, hle, by simp, hall⟩
        · refine Or.inr ⟨x :: l1, l2, by simp [heq], le_trans hle hy0, ?_, hl2⟩
          intro e he
          rcases List.mem_cons.1 he with he' | he'
          · rw [he']
            exact hy0
          · exact hl1 e he'
      · rw [show (match (some y0 : Option (A × ℝ)) with
            | none => some x
            | some z => if z.2 ≤ x.2 then some x else some z) = some y0 by
            simp [hle]] at h
        rcases ih y0 y h with ⟨rfl, hall⟩ | ⟨l1, l2, heq, hy0, hl1, hl2⟩
        · refine Or.inl ⟨rfl, ?_⟩
          intro e he
          rcases List.mem_cons.1 he with rfl | he'
          · exact lt_of_not_le hle
          · exact hall e he'
        · refine Or.inr ⟨x :: l1, l2, by simp [heq], hy0, ?_, hl2⟩
          intro e he
          rcases List.mem_cons.1 he with he' | he'
          · rw [he']
            exact le_trans (le_of_lt (lt_of_not_le hle)) hy0
          · exact hl1 e he'

/-- `maxByKeyLast` returns the last element attaining the maximal key. -/
theorem maxByKeyLast_spec {A : Type} (l : List (A × ℝ)) (y : A × ℝ)
    (h : maxByKeyLast l = some y) :
    ∃ l1 l2, l = l1 ++ y :: l2 ∧ (∀ e ∈ l1, e.2 ≤ y.2) ∧ (∀ e ∈ l2, e.2 < y.2) := by
  cases l with
  | nil => exact absurd h (by simp [maxByKeyLast])
  | cons x xs =>
      unfold maxByKeyLast at h
      rw [List.foldl_cons] at h
      rcases maxByKeyLast_aux xs x y h with ⟨hyx, hall⟩ | ⟨l1, l2, heq, hy0, hl1, hl2⟩
      · subst hyx
        exact ⟨[], xs, by simp, by simp, hall⟩
      · refine ⟨x :: l1, l2, by simp [heq], ?_, hl2⟩
        intro e he
        rcases List.mem_cons.1 he with he' | he'
        · rw [he']
          exact hy0
        · exact hl1 e he'

theorem mapM_fst {A B : Type} (f : A → Option (A × B))
    (hf : ∀ a b, f a = some b → b.1 = a) :
    ∀ (l : List A) (r : List (A × B)), l.mapM f = some r → r.map Prod.fst = l := by
  intro l
  induction l with
  | nil =>
      intro r h
      rw [List.mapM_nil] at h
      simp at h
      subst h
      rfl
  | cons x xs ih =>
      intro r h
      rw [List.mapM_cons] at h
      cases hfx : f x with
      | none => rw [hfx] at h; simp at h
      | some b =>
          rw [hfx] at h
          cases hrest : xs.mapM f with
          | none => rw [hrest] at h; simp at h
          | some rs =>
              rw [hrest] at h
              simp at h
              rw [← h]
              simp [hf x b hfx, ih rs hrest]

/-- A node with no known children; both of its legal moves are untried. -/
def c4Node : Node Nat Nat :=
  { player := .one, local_attempts := 1, local_wins := 0, local_losses := 0,
    children := [], parents := [] }

theorem c4_max_eval : maxByKeyLast [((0 : Nat), f64MAX), (1, f64MAX)] = some (1, f64MAX) := by
  show (if ((0 : Nat), f64MAX).2 ≤ ((1 : Nat), f64MAX).2 then some ((1 : Nat), f64MAX)
      else some ((0 : Nat), f64MAX)) = some (1, f64MAX)
  split
  · rfl
  · case isFalse hcon => exact absurd le_rfl hcon

/-- C4 counterexample: with two legal moves 0 and 1 both lacking a known
child (so both score `f64::MAX`), `choose_move_by_uct_value` returns move 1 —
the LAST maximal move in enumeration order — not the first as claimed. -/
theorem C4_tie_returns_last_cex :
    lookupKey c4Node.children 0 = none ∧ lookupKey c4Node.children 1 = none ∧
    choose_move_by_uct_value ([] : Store Nat Nat) 1 0 c4Node [0, 1] = some (some 1) ∧
    (some (some 1) : Option (Option Nat)) ≠ some (some 0) := by
  refine ⟨rfl, rfl, ?_, by simp⟩
  have e1 : choose_move_by_uct_value ([] : Store Nat Nat) 1 0 c4Node [0, 1] =
      some ((maxByKeyLast [((0 : Nat), f64MAX), (1, f64MAX)]).map Prod.fst) := rfl
  rw [e1, c4_max_eval]
  rfl

/-- C4 (amended): when selection returns a move, the scored list pairs the
legal moves in enumeration order with their scores, and the returned move is
the LAST move attaining the maximal score: everything before it scores at
most the maximum and everything after it scores strictly less (Rust's
`max_by_key` returns the last of several equal maxima, not the first). -/
theorem C4_choose_move_tie_last {P M : Type} [DecidableEq P] [DecidableEq M]
    (cache : Store P M) (fuel : Nat) (c : ℝ) (node : Node P M)
    (legal_moves : List M) (att : Nat) (scored : List (M × ℝ)) (mv : M)
    (hatt : attempts cache fuel node = some att)
    (hscored : (legal_moves.mapM fun mv2 =>
      match lookupKey node.children mv2 with
      | some child =>
          (storeGet cache child).bind fun child_node =>
            (uct_value cache fuel child_node att c).map fun u => (mv2, u)
      | none => some (mv2, f64MAX)) = some scored)
    (h : choose_move_by_uct_value cache fuel c node legal_moves = some (some mv)) :
    scored.map Prod.fst = legal_moves ∧
    ∃ s l1 l2, scored = l1 ++ (mv, s) :: l2 ∧
      (∀ e ∈ l1, e.2 ≤ s) ∧ (∀ e ∈ l2, e.2 < s) := by
  have hfst : scored.map Prod.fst = legal_moves := by
    refine mapM_fst _ ?_ legal_moves scored hscored
    intro a b hab
    cases hl : lookupKey node.children a with
    | none =>
        rw [hl] at hab
        replace hab : some (a, f64MAX) = some b := hab
        cases Option.some.inj hab
        rfl
    | some child =>
        rw [hl] at hab
        replace hab : ((storeGet cache child).bind fun child_node =>
            Option.map (fun u => (a, u)) (uct_value cache fuel child_node att c)) =
            some b := hab
        cases hg : storeGet cache child with
        | none => rw [hg] at hab; simp at hab
        | some cnn =>
            rw [hg, Option.some_bind] at hab
            cases hu : uct_value cache fuel cnn att c with
            | none => rw [hu] at hab; simp at hab
            | some u =>
                rw [hu] at hab
                simp at hab
                rw [← hab]
  unfold choose_move_by_uct_value at h
  rw [hatt] at h
  simp only [Option.some_bind] at h
  rw [hscored] at h
  simp only [Option.map_some'] at h
  have h' : (maxByKeyLast scored).map Prod.fst = some mv := Option.some.inj h
  cases hm : maxByKeyLast scored with
  | none => rw [hm] at h'; simp at h'
  | some y =>
      rw [hm] at h'
      simp at h'
      obtain ⟨l1, l2, heq, hl1, hl2⟩ := maxByKeyLast_spec scored y hm
      have hy : (mv, y.2) = y := by
        rw [← h']
      refine ⟨hfst, y.2, l1, l2, ?_, hl1, hl2⟩
      rw [hy]
      exact heq

/-- C4 witness: the amended theorem applied to the two-untried-moves example:
the scored list is `[(0, MAX), (1, MAX)]` and the returned move 1 is the last
maximal one. -/
theorem C4_choose_move_tie_last_witness :
    attempts ([] : Store Nat Nat) 1 c4Node = some 0 ∧
    choose_move_by_uct_value ([] : Store Nat Nat) 1 0 c4Node [0, 1] = some (some 1) ∧
    ([((0 : Nat), f64MAX), (1, f64MAX)]).map Prod.fst = [0, 1] ∧
    (∃ s l1 l2, ([((0 : Nat), f64MAX), (1, f64MAX)]) = l1 ++ ((1 : Nat), s) :: l2 ∧
      (∀ e ∈ l1, e.2 ≤ s) ∧ (∀ e ∈ l2, e.2 < s)) := by
  have hscored : (([0, 1] : List Nat).mapM fun mv2 =>
      match lookupKey c4Node.children mv2 with
      | some child =>
          (storeGet ([] : Store Nat Nat) child).bind fun child_node =>
            (uct_value ([] : Store Nat Nat) 1 child_node 0 (0 : ℝ)).map fun u => (mv2, u)
      | none => some (mv2, f64MAX)) = some [(0, f64MAX), (1, f64MAX)] := rfl
  have hch : choose_move_by_uct_value ([] : Store Nat Nat) 1 0 c4Node [0, 1] = some (some 1) := by
    have e1 : choose_move_by_uct_value ([] : Store Nat Nat) 1 0 c4Node [0, 1] =
        some ((maxByKeyLast [((0 : Nat), f64MAX), (1, f64MAX)]).map Prod.fst) := rfl
    rw [e1, c4_max_eval]
    rfl
  obtain ⟨hfst, hrest⟩ := C4_choose_move_tie_last ([] : Store Nat Nat) 1 0 c4Node [0, 1] 0
    [(0, f64MAX), (1, f64MAX)] 1 rfl hscored hch
  exact ⟨rfl, hch, hfst, hrest⟩

theorem attempts_lt_256 {P M : Type} [DecidableEq P] {cache : Store P M}
    {fuel : Nat} {node : Node P M} {a : Nat}
    (h : attempts cache fuel node = some a) : a < 256 := by
  obtain ⟨mp, _, ha⟩ := Option.map_eq_some'.1 h
  rw [← ha]
  exact Nat.mod_lt _ (by omega)

theorem wins_lt_256 {P M : Type} [DecidableEq P] {cache : Store P M}
    {fuel : Nat} {node : Node P M} {a : Nat}
    (h : wins cache fuel node = some a) : a < 256 := by
  obtain ⟨mp, _, ha⟩ := Option.map_eq_some'.1 h
  rw [← ha]
  exact Nat.mod_lt _ (by omega)

/-- The finite part of the UCT score of a child explored 10 times is below
`f64::MAX` for every exploration constant in the `f64` range: the win rate is
at most 25.5 and the exploration factor `sqrt(ln(parent)/10)` is at most 3/4
because the `u8` parent visit count is below 256. -/
theorem uct_formula_lt_f64MAX (w att : Nat) (c : ℝ)
    (hw : w < 256) (hatt : att < 256) (hatt0 : 0 < att)
    (hc0 : 0 ≤ c) (hcM : c ≤ f64MAX) :
    (w : ℝ) / (10 : ℝ) + c * Real.sqrt (Real.log (att : ℝ) / (10 : ℝ)) < f64MAX := by
  have hattR : (att : ℝ) ≤ 256 := by
    have : att ≤ 256 := by omega
    exact_mod_cast this
  have hattR0 : (0 : ℝ) < (att : ℝ) := by exact_mod_cast hatt0
  have hlog : Real.log (att : ℝ) ≤ Real.log 256 :=
    (Real.log_le_log_iff hattR0 (by norm_num)).2 hattR
  have hlog256 : Real.log (256 : ℝ) = 8 * Real.log 2 := by
    rw [show (256 : ℝ) = 2 ^ (8 : ℕ) by norm_num, Real.log_pow]
    norm_num
  have hl2 : Real.log 2 < 0.6931471808 := Real.log_two_lt_d9
  have hlogb : Real.log (att : ℝ) / 10 ≤ 9 / 16 := by
    rw [hlog256] at hlog
    nlinarith
  have h34 : Real.sqrt (9 / 16) = 3 / 4 := by
    rw [show (9 : ℝ) / 16 = (3 / 4) ^ 2 by norm_num]
    exact Real.sqrt_sq (by norm_num)
  have hsqrt : Real.sqrt (Real.log (att : ℝ) / 10) ≤ 3 / 4 := by
    calc Real.sqrt (Real.log (att : ℝ) / 10) ≤ Real.sqrt (9 / 16) :=
          Real.sqrt_le_sqrt hlogb
      _ = 3 / 4 := h34
  have hwR : (w : ℝ) ≤ 255 := by
    have : w ≤ 255 := by omega
    exact_mod_cast this
  have hcs : c * Real.sqrt (Real.log (att : ℝ) / 10) ≤ c * (3 / 4) :=
    mul_le_mul_of_nonneg_left hsqrt hc0
  have hcM34 : c * (3 / 4) ≤ f64MAX * (3 / 4) :=
    mul_le_mul_of_nonneg_right hcM (by norm_num)
  have hMAXbig : (102 : ℝ) < f64MAX := by
    unfold f64MAX
    norm_num
  have hwd : (w : ℝ) / 10 ≤ 255 / 10 := by linarith
  linarith

/-- Evaluating `uct_value` for a child whose aggregate visit count is 10 and
whose parent's aggregate visit count is nonzero. -/
theorem uct_value_eval {P M : Type} [DecidableEq P] (cache : Store P M)
    (fuel : Nat) (cn : Node P M) (att w : Nat) (c : ℝ)
    (hca : attempts cache fuel cn = some 10)
    (hcw : wins cache fuel cn = some w)
    (hatt0 : 0 < att) :
    uct_value cache fuel cn att c =
      some ((w : ℝ) / (10 : ℝ) + c * Real.sqrt (Real.log (att : ℝ) / (10 : ℝ))) := by
  unfold uct_value
  rw [hca]
  simp only [Option.some_bind]
  rw [if_neg (by omega : ¬((10 : Nat) = 0))]
  rw [hcw]
  simp only [Option.some_bind]
  rw [if_neg (by omega : ¬(att = 0))]
  norm_num

/-- C3: given a node with exactly one known child that has been explored 10
times (any win ratio `w`) and one further legal move with no known child,
`choose_move_by_uct_value` chooses the untried move in either enumeration
order, for any exploration constant `c` with `0 ≤ c ≤ f64::MAX` (every finite
`f64` constant), provided the node's own aggregate visit count is nonzero (so
the tried child's score is a well-defined finite number). -/
theorem C3_untried_move_priority {P M : Type} [DecidableEq P] [DecidableEq M]
    (cache : Store P M) (fuel : Nat) (node : Node P M)
    (mc mu : M) (cp : P) (child_node : Node P M) (w att : Nat) (c : ℝ)
    (hchild : node.children = [(mc, cp)])
    (hne : mu ≠ mc)
    (hcp : storeGet cache cp = some child_node)
    (hca : attempts cache fuel child_node = some 10)
    (hcw : wins cache fuel child_node = some w)
    (hatt : attempts cache fuel node = some att)
    (hatt0 : 0 < att)
    (hc0 : 0 ≤ c) (hcM : c ≤ f64MAX) :
    choose_move_by_uct_value cache fuel c node [mc, mu] = some (some mu) ∧
    choose_move_by_uct_value cache fuel c node [mu, mc] = some (some mu) := by
  have hwlt : w < 256 := wins_lt_256 hcw
  have hattlt : att < 256 := attempts_lt_256 hatt
  have hub : (w : ℝ) / (10 : ℝ) + c * Real.sqrt (Real.log (att : ℝ) / (10 : ℝ)) < f64MAX :=
    uct_formula_lt_f64MAX w att c hwlt hattlt hatt0 hc0 hcM
  have huct : uct_value cache fuel child_node att c =
      some ((w : ℝ) / (10 : ℝ) + c * Real.sqrt (Real.log (att : ℝ) / (10 : ℝ))) :=
    uct_value_eval cache fuel child_node att w c hca hcw hatt0
  have hlook_mc : lookupKey node.children mc = some cp := by
    rw [hchild]
    simp [lookupKey]
  have hlook_mu : lookupKey node.children mu = none := by
    rw [hchild]
    have : ¬(mc = mu) := fun h => hne h.symm
    simp [lookupKey, this]
  have hm1 : maxByKeyLast [(mc, (w : ℝ) / (10 : ℝ) +
      c * Real.sqrt (Real.log (att : ℝ) / (10 : ℝ))), (mu, f64MAX)] = some (mu, f64MAX) := by
    show (if ((mc, (w : ℝ) / (10 : ℝ) +
        c * Real.sqrt (Real.log (att : ℝ) / (10 : ℝ)))).2 ≤ ((mu, f64MAX)).2
        then some (mu, f64MAX)
        else some (mc, (w : ℝ) / (10 : ℝ) +
          c * Real.sqrt (Real.log (att : ℝ) / (10 : ℝ)))) = some (mu, f64MAX)
    rw [if_pos (le_of_lt hub)]
  have hm2 : maxByKeyLast [(mu, f64MAX), (mc, (w : ℝ) / (10 : ℝ) +
      c * Real.sqrt (Real.log (att : ℝ) / (10 : ℝ)))] = some (mu, f64MAX) := by
    show (if ((mu, f64MAX)).2 ≤ ((mc, (w : ℝ) / (10 : ℝ) +
        c * Real.sqrt (Real.log (att : ℝ) / (10 : ℝ)))).2
        then some (mc, (w : ℝ) / (10 : ℝ) +
          c * Real.sqrt (Real.log (att : ℝ) / (10 : ℝ)))
        else some (mu, f64MAX)) = some (mu, f64MAX)
    rw [if_neg (not_le.2 hub)]
  constructor
  · unfold choose_move_by_uct_value
    rw [hatt]
    simp only [Option.some_bind]
    rw [show (([mc, mu]).mapM fun mv2 =>
        match lookupKey node.children mv2 with
        | some child =>
            (storeGet cache child).bind fun child_node2 =>
              (uct_value cache fuel child_node2 att c).map fun u => (mv2, u)
        | none => some (mv2, f64MAX)) = some [(mc, (w : ℝ) / (10 : ℝ) +
          c * Real.sqrt (Real.log (att : ℝ) / (10 : ℝ))), (mu, f64MAX)] by
      simp only [List.mapM_cons, List.mapM_nil, hlook_mc, hlook_mu, hcp, huct,
        Option.some_bind, Option.map_some', Option.pure_def, Option.bind_some]
      rfl]
    simp only [Option.map_some']
    rw [hm1]
    rfl
  · unfold choose_move_by_uct_value
    rw [hatt]
    simp only [Option.some_bind]
    rw [show (([mu, mc]).mapM fun mv2 =>
        match lookupKey node.children mv2 with
        | some child =>
            (storeGet cache child).bind fun child_node2 =>
              (uct_value cache fuel child_node2 att c).map fun u => (mv2, u)
        | none => some (mv2, f64MAX)) = some [(mu, f64MAX), (mc, (w : ℝ) / (10 : ℝ) +
          c * Real.sqrt (Real.log (att : ℝ) / (10 : ℝ)))] by
      simp only [List.mapM_cons, List.mapM_nil, hlook_mc, hlook_mu, hcp, huct,
        Option.some_bind, Option.map_some', Option.pure_def, Option.bind_some]
      rfl]
    simp only [Option.map_some']
    rw [hm2]
    rfl

/-- Concrete C3 scenario: root (position 0) with one known child (position 1,
via move 7) whose subtree recorded 10 rollouts (grandchild position 3), and
one further legal move 8 with no known child. -/
def c3Grand : Node Nat Nat :=
  { player := .one, local_attempts := 10, local_wins := 3, local_losses := 4,
    children := [], parents := [(2, 1)] }

def c3Child : Node Nat Nat :=
  { player := .two, local_attempts := 0, local_wins := 0, local_losses := 0,
    children := [(2, 3)], parents := [(7, 0)] }

def c3Root : Node Nat Nat :=
  { player := .one, local_attempts := 0, local_wins := 0, local_losses := 0,
    children := [(7, 1)], parents := [] }

def c3St : Store Nat Nat := [(0, c3Root), (1, c3Child), (3, c3Grand)]

/-- C3 witness: in the concrete scenario store, with exploration constant 0,
selection picks the untried move 8 in both enumeration orders. -/
theorem C3_untried_move_priority_witness :
    (c3Root.children = [(7, 1)] ∧ (8 : Nat) ≠ 7 ∧ storeGet c3St 1 = some c3Child ∧
      attempts c3St 3 c3Child = some 10 ∧ wins c3St 3 c3Child = some 4 ∧
      attempts c3St 3 c3Root = some 10 ∧ (0 : Nat) < 10 ∧
      (0 : ℝ) ≤ 0 ∧ (0 : ℝ) ≤ f64MAX) ∧
    choose_move_by_uct_value c3St 3 0 c3Root [7, 8] = some (some 8) ∧
    choose_move_by_uct_value c3St 3 0 c3Root [8, 7] = some (some 8) := by
  have hcMAX : (0 : ℝ) ≤ f64MAX := by
    unfold f64MAX
    norm_num
  have h := C3_untried_move_priority c3St 3 c3Root 7 8 1 c3Child 4 10 0
    (by decide) (by decide) (by decide) (by decide) (by decide) (by decide)
    (by decide) le_rfl hcMAX
  exact ⟨⟨by decide, by decide, by decide, by decide, by decide, by decide,
    by decide, le_rfl, hcMAX⟩, h.1, h.2⟩

/-- Rust's `Iterator::max_by_key` over `Nat` keys (the decision phase compares
aggregate visit counts): last maximal element wins. -/
def maxByKeyLastNat {A : Type} (l : List (A × Nat)) : Option (A × Nat) :=
  l.foldl
    (fun acc x =>
      match acc with
      | none => some x
      | some y => if y.2 ≤ x.2 then some x else some y)
    none

/-- The decision phase at the end of `choose_move`: look up the current
position (`expect("Bleh")`), score every known child by its aggregate visit
count (`get(child).unwrap().attempts(..)`), take `max_by_key(..).unwrap()`.
All three panicking operations — including the `unwrap` of the maximum of an
EMPTY children iterator — are the `none` result: the function aborts, it does
not return a distinct recoverable error. -/
def decisionPhase {P M : Type} [DecidableEq P] (st : Store P M) (fuel : Nat)
    (game : P) : Option M :=
  (storeGet st game).bind fun current_node =>
    (current_node.children.mapM fun mc =>
      (storeGet st mc.2).bind fun child_node =>
        (attempts st fuel child_node).map fun a => (mc.1, a)).bind fun scored =>
      (maxByKeyLastNat scored).map Prod.fst

/-- A store after an exhausted budget that discovered no children: the current
position's node exists (rollouts were recorded at it) but has no children. -/
def c6Node : Node Nat Nat :=
  { player := .one, local_attempts := 1, local_wins := 0, local_losses := 1,
    children := [], parents := [] }

def c6St : Store Nat Nat := [(0, c6Node)]

/-- C6: when the iteration budget completes with no known children under the
current position, the decision phase of `choose_move` aborts (the
`max_by_key(..).unwrap()` panic, modelled `none`) — the same fatal channel as
internal invariant violations — rather than returning a move or any distinct
recoverable exhausted-budget signal as the claim requires. -/
theorem C6_no_children_aborts :
    storeGet c6St 0 = some c6Node ∧ c6Node.children = [] ∧
    decisionPhase c6St 3 0 = none := by decide

/-- `random_sample` from `game/src/lib.rs`: reservoir sampling over one pass;
`draws n` is the `n`-th value of `rand::random::<f64>()` (a draw in `[0,1)`),
`i` starts at 1 and the `n`-th candidate is accepted when `draws n < 1/i`
with `i = n + 1`. -/
noncomputable def random_sample {T : Type} (draws : Nat → ℝ) (l : List T) : Option T :=
  (l.foldl
    (fun (acc : Option T × Nat) item =>
      (if draws acc.2 < 1 / ((acc.2 : ℝ) + 1) then some item else acc.1, acc.2 + 1))
    (none, 0)).1

theorem random_sample_aux {T : Type} (draws : Nat → ℝ) :
    ∀ (l : List T) (y : T) (n : Nat),
      ∃ z, (l.foldl
        (fun (acc : Option T × Nat) item =>
          (if draws acc.2 < 1 / ((acc.2 : ℝ) + 1) then some item else acc.1, acc.2 + 1))
        (some y, n)).1 = some z ∧ (z = y ∨ z ∈ l) := by
  intro l
  induction l with
  | nil =>
      intro y n
      exact ⟨y, rfl, Or.inl rfl⟩
  | cons x xs ih =>
      intro y n
      rw [List.foldl_cons]
      dsimp only
      by_cases hd : draws n < 1 / ((n : ℝ) + 1)
      · rw [if_pos hd]
        obtain ⟨z, hz, hzc⟩ := ih x (n + 1)
        refine ⟨z, hz, ?_⟩
        rcases hzc with rfl | hzc
        · exact Or.inr (by simp)
        · exact Or.inr (by simp [hzc])
      · rw [if_neg hd]
        obtain ⟨z, hz, hzc⟩ := ih y (n + 1)
        refine ⟨z, hz, ?_⟩
        rcases hzc with rfl | hzc
        · exact Or.inl rfl
        · exact Or.inr (by simp [hzc])

/-- C10: `random_sample` returns `none` exactly on an empty input: for every
sequence of random draws in `[0, 1)`, the first candidate is accepted
unconditionally (a draw below `1/1 = 1`), so every non-empty input yields
`some` element of the input. -/
theorem C10_random_sample_none_iff_empty {T : Type} (draws : Nat → ℝ)
    (hdraws : ∀ n, 0 ≤ draws n ∧ draws n < 1) :
    random_sample draws ([] : List T) = none ∧
    ∀ l : List T, l ≠ [] → ∃ x, x ∈ l ∧ random_sample draws l = some x := by
  constructor
  · rfl
  · intro l hl
    cases l with
    | nil => exact absurd rfl hl
    | cons x xs =>
        unfold random_sample
        rw [List.foldl_cons]
        dsimp only
        have h1 : draws 0 < 1 / (((0 : Nat) : ℝ) + 1) := by
          have h2 := (hdraws 0).2
          norm_num
          exact h2
        rw [if_pos h1]
        obtain ⟨z, hz, hzc⟩ := random_sample_aux draws xs x 1
        refine ⟨z, ?_, hz⟩
        rcases hzc with rfl | hzc
        · simp
        · simp [hzc]

/-- C10 witness: with the all-zero draw sequence, sampling the empty list
gives `none` and sampling `[5]` gives an element of `[5]`. -/
theorem C10_random_sample_witness :
    (∀ n : Nat, 0 ≤ (0 : ℝ) ∧ (0 : ℝ) < 1) ∧
    random_sample (fun _ => (0 : ℝ)) ([] : List Nat) = none ∧
    (∃ x, x ∈ [5] ∧ random_sample (fun _ => (0 : ℝ)) [5] = some x) := by
  have hd : ∀ n : Nat, 0 ≤ (0 : ℝ) ∧ (0 : ℝ) < 1 := fun _ => ⟨le_rfl, by norm_num⟩
  have h := @C10_random_sample_none_iff_empty Nat (fun _ => (0 : ℝ)) hd
  exact ⟨hd, h.1, h.2 [5] (by simp)⟩

/-- `HashMap::remove` on the store (detaches the record, no cascade). -/
def storeRemove {P M : Type} [DecidableEq P] (st : Store P M) (p : P) : Store P M :=
  removeKey st p

/-- `get_mut(key).expect(..)` followed by an in-place mutation: `none` when
the key is absent (the dangling-pointer panic). -/
def storeModify {P M : Type} [DecidableEq P] (st : Store P M) (p : P)
    (f : Node P M → Node P M) : Option (Store P M) :=
  match storeGet st p with
  | some n => some (setKey st p (f n))
  | none => none

/-- Loop "remove node as child from all parents": for each `(m, parent)` in
the removed node's parents, delete key `m` from that parent's children map
(`expect("Dangling pointer")` on a missing parent). -/
def detachFromParents {P M : Type} [DecidableEq P] [DecidableEq M] :
    Store P M → List (M × P) → Option (Store P M)
  | st, [] => some st
  | st, (m, parent) :: rest =>
      (storeModify st parent fun n => { n with children := removeKey n.children m }).bind
        fun st2 => detachFromParents st2 rest

/-- Loop "remove node as parent from all children": for each `(m, child)` in
the removed node's children, delete key `m` from that child's parents map. -/
def detachFromChildren {P M : Type} [DecidableEq P] [DecidableEq M] :
    Store P M → List (M × P) → Option (Store P M)
  | st, [] => some st
  | st, (m, child) :: rest =>
      (storeModify st child fun n => { n with parents := removeKey n.parents m }).bind
        fun st2 => detachFromChildren st2 rest

/-- The recursion of `MonteCarloTreeSearchPlayer::remove_tree`, expressed with
an explicit continuation worklist so that it is structural in a fuel argument:
`Sum.inl p` is an unconditional removal of `p` (the body of `remove_tree`),
`Sum.inr tasks` is the "iterate into orphans" loop over the listed child
edges — resolve each child (`expect("Dangling pointer")`), recursively remove
it when its parents map is empty, skip it otherwise.  `none` models fuel
exhaustion (the Rust recursion diverging) or a dangling-pointer panic. -/
def rtAux {P M : Type} [DecidableEq P] [DecidableEq M] :
    Nat → Store P M → (P ⊕ List (M × P)) → Option (Store P M)
  | 0, _, _ => none
  | fuel + 1, st, Sum.inl p =>
      match storeGet st p with
      | none => some st
      | some node =>
          (detachFromParents (storeRemove st p) node.parents).bind fun st2 =>
            (detachFromChildren st2 node.children).bind fun st3 =>
              rtAux fuel st3 (Sum.inr node.children)
  | _ + 1, st, Sum.inr [] => some st
  | fuel + 1, st, Sum.inr ((_, c) :: rest) =>
      (storeGet st c).bind fun cn =>
        (if cn.parents = [] then rtAux fuel st (Sum.inl c) else some st).bind fun st2 =>
          rtAux fuel st2 (Sum.inr rest)

/-- `MonteCarloTreeSearchPlayer::remove_tree`. -/
def remove_tree {P M : Type} [DecidableEq P] [DecidableEq M] (fuel : Nat)
    (st : Store P M) (game_state : P) : Option (Store P M) :=
  rtAux fuel st (Sum.inl game_state)

/-- `MonteCarloTreeSearchPlayer::pruning`: remove the pre-move node, detach
its edges on both sides, then walk its children other than the one reached by
the played move, recursively deleting those left without parents (and
warning, a no-op on the store, about the ones still parented). -/
def pruning {P M : Type} [DecidableEq P] [DecidableEq M] (fuel : Nat)
    (st : Store P M) (current_state : Option P) (game_move : M) :
    Option (Store P M) :=
  match current_state with
  | none => some st
  | some cur =>
      match storeGet st cur with
      | none => some st
      | some node =>
          (detachFromParents (storeRemove st cur) node.parents).bind fun st2 =>
            (detachFromChildren st2 node.children).bind fun st3 =>
              rtAux fuel st3 (Sum.inr (node.children.filter fun mc => mc.1 ≠ game_move))

/-- Pruning scenario with a transposition: the pre-move node P (position 0)
has children A (move 1 → position 10, the move actually played) and
B (move 2 → position 20); B also has A as its own child (move 3), so A is
reachable through the unrealized sibling B. -/
def c5A : Node Nat Nat :=
  { player := .two, local_attempts := 1, local_wins := 0, local_losses := 0,
    children := [], parents := [(1, 0), (3, 20)] }

def c5B : Node Nat Nat :=
  { player := .two, local_attempts := 1, local_wins := 0, local_losses := 0,
    children := [(3, 10)], parents := [(2, 0)] }

def c5P : Node Nat Nat :=
  { player := .one, local_attempts := 1, local_wins := 0, local_losses := 0,
    children := [(1, 10), (2, 20)], parents := [] }

def c5St : Store Nat Nat := [(0, c5P), (10, c5A), (20, c5B)]

/-- C5 counterexample: pruning `c5St` after move 1 was played from position 0
deletes the ENTIRE store — including position 10, the child reached by the
played move: detaching P empties B's parents, the cascade removes B, which
orphans A (its only remaining parent was B), and A is deleted by the cascade
even though it is the realized child the claim says is retained. -/
theorem C5_played_child_deleted_cex :
    storeGet c5St 0 = some c5P ∧ (1, 10) ∈ c5P.children ∧
    pruning 9 c5St (some 0) 1 = some [] ∧
    storeGet ([] : Store Nat Nat) 10 = none := by decide

theorem lookupKey_setKey {K V : Type} [DecidableEq K] (m : List (K × V)) (k : K) (v : V)
    (q : K) : lookupKey (setKey m k v) q = if q = k then some v else lookupKey m q := by
  induction m with
  | nil =>
      by_cases hq : q = k
      · subst hq
        simp [setKey, lookupKey]
      · have h2 : ¬k = q := fun h => hq h.symm
        simp [setKey, lookupKey, hq, h2]
  | cons kv rest ih =>
      obtain ⟨k0, v0⟩ := kv
      by_cases hk : k0 = k
      · subst hk
        rw [setKey_cons_eq v0 v rest rfl]
        by_cases hq : q = k0
        · subst hq
          simp [lookupKey]
        · have h2 : ¬k0 = q := fun h => hq h.symm
          simp [lookupKey, h2, hq]
      · rw [setKey_cons_ne v0 v rest hk]
        by_cases hq : q = k0
        · subst hq
          have hqk : ¬q = k := fun h => hk h
          simp [lookupKey, hqk]
        · have h2 : ¬k0 = q := fun h => hq h.symm
          simp only [lookupKey, if_neg h2]
          rw [ih]

theorem storeGet_storeRemove {P M : Type} [DecidableEq P] (st : Store P M) (p q : P) :
    storeGet (storeRemove st p) q = if q = p then none else storeGet st q := by
  induction st with
  | nil => by_cases hq : q = p <;> simp [storeRemove, removeKey, storeGet, lookupKey, hq]
  | cons kv rest ih =>
      obtain ⟨k0, n0⟩ := kv
      by_cases hk : k0 = p
      · subst hk
        have hrem : storeRemove ((k0, n0) :: rest) k0 = storeRemove rest k0 := by
          simp [storeRemove, removeKey]
        rw [hrem, ih]
        by_cases hq : q = k0
        · simp [hq]
        · rw [if_neg hq, if_neg hq]
          have h2 : ¬k0 = q := fun h => hq h.symm
          simp [storeGet, lookupKey, h2]
      · have hrem : storeRemove ((k0, n0) :: rest) p = (k0, n0) :: storeRemove rest p := by
          simp [storeRemove, removeKey, hk]
        rw [hrem]
        by_cases hq : q = k0
        · have h2 : k0 = q := hq.symm
          have hqp : ¬q = p := fun h => hk (hq.symm.trans h)
          rw [show storeGet ((k0, n0) :: storeRemove rest p) q = some n0 by
            simp [storeGet, lookupKey, h2]]
          rw [if_neg hqp]
          simp [storeGet, lookupKey, h2]
        · have h2 : ¬k0 = q := fun h => hq h.symm
          rw [show storeGet ((k0, n0) :: storeRemove rest p) q =
              storeGet (storeRemove rest p) q by simp [storeGet, lookupKey, h2]]
          rw [ih]
          by_cases hqp : q = p
          · simp [hqp]
          · rw [if_neg hqp, if_neg hqp]
            simp [storeGet, lookupKey, h2]

theorem storeModify_spec {P M : Type} [DecidableEq P] {st st' : Store P M} {p : P}
    {f : Node P M → Node P M} (h : storeModify st p f = some st') :
    ∃ n, storeGet st p = some n ∧ st' = setKey st p (f n) := by
  unfold storeModify at h
  cases hg : storeGet st p with
  | none => rw [hg] at h; simp at h
  | some n =>
      rw [hg] at h
      simp at h
      exact ⟨n, rfl, h.symm⟩

theorem storeGet_storeModify {P M : Type} [DecidableEq P] {st st' : Store P M} {p : P}
    {f : Node P M → Node P M} (h : storeModify st p f = some st') (q : P) :
    ∃ n, storeGet st p = some n ∧
      storeGet st' q = if q = p then some (f n) else storeGet st q := by
  obtain ⟨n, hn, rfl⟩ := storeModify_spec h
  exact ⟨n, hn, lookupKey_setKey st p (f n) q⟩

/-- `st'` is a substore of `st`: every record of `st'` exists in `st` with at
least the same edges. -/
def Substore {P M : Type} [DecidableEq P] (st' st : Store P M) : Prop :=
  ∀ q n', storeGet st' q = some n' → ∃ n, storeGet st q = some n ∧
    (∀ e ∈ n'.children, e ∈ n.children) ∧ (∀ e ∈ n'.parents, e ∈ n.parents)

theorem Substore_refl {P M : Type} [DecidableEq P] (st : Store P M) : Substore st st :=
  fun _ n' h => ⟨n', h, fun _ he => he, fun _ he => he⟩

theorem Substore_trans {P M : Type} [DecidableEq P] {st1 st2 st3 : Store P M}
    (h12 : Substore st1 st2) (h23 : Substore st2 st3) : Substore st1 st3 := by
  intro q n1 h1
  obtain ⟨n2, h2, hc12, hp12⟩ := h12 q n1 h1
  obtain ⟨n3, h3, hc23, hp23⟩ := h23 q n2 h2
  exact ⟨n3, h3, fun e he => hc23 e (hc12 e he), fun e he => hp23 e (hp12 e he)⟩

theorem storeRemove_sub {P M : Type} [DecidableEq P] (st : Store P M) (p : P) :
    Substore (storeRemove st p) st := by
  intro q n' h
  rw [storeGet_storeRemove] at h
  by_cases hq : q = p
  · rw [if_pos hq] at h; simp at h
  · rw [if_neg hq] at h
    exact ⟨n', h, fun _ he => he, fun _ he => he⟩

theorem mem_removeKey {K V : Type} [DecidableEq K] {l : List (K × V)} {k : K}
    {e : K × V} (h : e ∈ removeKey l k) : e ∈ l := by
  unfold removeKey at h
  exact List.mem_of_mem_filter h

theorem detachFromParents_sub {P M : Type} [DecidableEq P] [DecidableEq M] :
    ∀ (l : List (M × P)) (st st' : Store P M),
      detachFromParents st l = some st' → Substore st' st := by
  intro l
  induction l with
  | nil =>
      intro st st' h
      simp [detachFromParents] at h
      exact h ▸ Substore_refl st
  | cons mp rest ih =>
      intro st st' h
      obtain ⟨m, parent⟩ := mp
      unfold detachFromParents at h
      cases hm : storeModify st parent fun n => { n with children := removeKey n.children m } with
      | none => rw [hm] at h; simp at h
      | some st2 =>
          rw [hm, Option.some_bind] at h
          refine Substore_trans (ih st2 st' h) ?_
          intro q n' hq
          obtain ⟨n, hn, hget⟩ := storeGet_storeModify hm q
          rw [hget] at hq
          by_cases hqp : q = parent
          · rw [if_pos hqp] at hq
            cases Option.some.inj hq
            exact ⟨n, hqp ▸ hn, fun e he => mem_removeKey he, fun _ he => he⟩
          · rw [if_neg hqp] at hq
            exact ⟨n', hq, fun _ he => he, fun _ he => he⟩

theorem detachFromChildren_sub {P M : Type} [DecidableEq P] [DecidableEq M] :
    ∀ (l : List (M × P)) (st st' : Store P M),
      detachFromChildren st l = some st' → Substore st' st := by
  intro l
  induction l with
  | nil =>
      intro st st' h
      simp [detachFromChildren] at h
      exact h ▸ Substore_refl st
  | cons mp rest ih =>
      intro st st' h
      obtain ⟨m, child⟩ := mp
      unfold detachFromChildren at h
      cases hm : storeModify st child fun n => { n with parents := removeKey n.parents m } with
      | none => rw [hm] at h; simp at h
      | some st2 =>
          rw [hm, Option.some_bind] at h
          refine Substore_trans (ih st2 st' h) ?_
          intro q n' hq
          obtain ⟨n, hn, hget⟩ := storeGet_storeModify hm q
          rw [hget] at hq
          by_cases hqp : q = child
          · rw [if_pos hqp] at hq
            cases Option.some.inj hq
            exact ⟨n, hqp ▸ hn, fun _ he => he, fun e he => mem_removeKey he⟩
          · rw [if_neg hqp] at hq
            exact ⟨n', hq, fun _ he => he, fun _ he => he⟩

theorem rtAux_sub {P M : Type} [DecidableEq P] [DecidableEq M] :
    ∀ (fuel : Nat) (st : Store P M) (t : P ⊕ List (M × P)) (st' : Store P M),
      rtAux fuel st t = some st' → Substore st' st := by
  intro fuel
  induction fuel with
  | zero => intro st t st' h; exact absurd h (by simp [rtAux])
  | succ fuel ih =>
      intro st t st' h
      match t with
      | Sum.inl p =>
          unfold rtAux at h
          cases hg : storeGet st p with
          | none =>
              rw [hg] at h
              simp at h
              exact h ▸ Substore_refl st
          | some node =>
              rw [hg] at h
              replace h : ((detachFromParents (storeRemove st p) node.parents).bind fun st2 =>
                  (detachFromChildren st2 node.children).bind fun st3 =>
                    rtAux fuel st3 (Sum.inr node.children)) = some st' := h
              cases hd1 : detachFromParents (storeRemove st p) node.parents with
              | none => rw [hd1] at h; simp at h
              | some st2 =>
                  rw [hd1, Option.some_bind] at h
                  cases hd2 : detachFromChildren st2 node.children with
                  | none => rw [hd2] at h; simp at h
                  | some st3 =>
                      rw [hd2, Option.some_bind] at h
                      exact Substore_trans (ih st3 _ st' h)
                        (Substore_trans (detachFromChildren_sub _ _ _ hd2)
                          (Substore_trans (detachFromParents_sub _ _ _ hd1)
                            (storeRemove_sub st p)))
      | Sum.inr [] =>
          unfold rtAux at h
          simp at h
          exact h ▸ Substore_refl st
      | Sum.inr ((m, c) :: rest) =>
          unfold rtAux at h
          cases hg : storeGet st c with
          | none => rw [hg] at h; simp at h
          | some cn =>
              rw [hg, Option.some_bind] at h
              by_cases hp : cn.parents = []
              · rw [if_pos hp] at h
                cases hrt : rtAux fuel st (Sum.inl c) with
                | none => rw [hrt] at h; simp at h
                | some st2 =>
                    rw [hrt, Option.some_bind] at h
                    exact Substore_trans (ih st2 _ st' h) (ih st _ st2 hrt)
              · rw [if_neg hp, Option.some_bind] at h
                exact ih st _ st' h

theorem Substore_none {P M : Type} [DecidableEq P] {st' st : Store P M}
    (h : Substore st' st) {q : P} (hq : storeGet st q = none) :
    storeGet st' q = none := by
  cases hg : storeGet st' q with
  | none => rfl
  | some n' =>
      obtain ⟨n, hn, _⟩ := h q n' hg
      rw [hn] at hq
      exact absurd hq (by simp)

theorem storeModify_keeps {P M : Type} [DecidableEq P] {st st' : Store P M} {p : P}
    {f : Node P M → Node P M} (h : storeModify st p f = some st') (q : P)
    (hq : storeGet st q ≠ none) : storeGet st' q ≠ none := by
  obtain ⟨n, _, hget⟩ := storeGet_storeModify h q
  rw [hget]
  by_cases hqp : q = p
  · rw [if_pos hqp]; simp
  · rw [if_neg hqp]; exact hq

theorem detachFromParents_keeps {P M : Type} [DecidableEq P] [DecidableEq M] :
    ∀ (l : List (M × P)) (st st' : Store P M), detachFromParents st l = some st' →
      ∀ q, storeGet st q ≠ none → storeGet st' q ≠ none := by
  intro l
  induction l with
  | nil =>
      intro st st' h q hq
      simp [detachFromParents] at h
      exact h ▸ hq
  | cons mp rest ih =>
      intro st st' h q hq
      obtain ⟨m, parent⟩ := mp
      unfold detachFromParents at h
      cases hm : storeModify st parent fun n => { n with children := removeKey n.children m } with
      | none => rw [hm] at h; simp at h
      | some st2 =>
          rw [hm, Option.some_bind] at h
          exact ih st2 st' h q (storeModify_keeps hm q hq)

theorem detachFromChildren_keeps {P M : Type} [DecidableEq P] [DecidableEq M] :
    ∀ (l : List (M × P)) (st st' : Store P M), detachFromChildren st l = some st' →
      ∀ q, storeGet st q ≠ none → storeGet st' q ≠ none := by
  intro l
  induction l with
  | nil =>
      intro st st' h q hq
      simp [detachFromChildren] at h
      exact h ▸ hq
  | cons mp rest ih =>
      intro st st' h q hq
      obtain ⟨m, child⟩ := mp
      unfold detachFromChildren at h
      cases hm : storeModify st child fun n => { n with parents := removeKey n.parents m } with
      | none => rw [hm] at h; simp at h
      | some st2 =>
          rw [hm, Option.some_bind] at h
          exact ih st2 st' h q (storeModify_keeps hm q hq)

/-- A child edge between two stored positions. -/
def EdgeStep {P M : Type} [DecidableEq P] (st : Store P M) (a b : P) : Prop :=
  ∃ n m, storeGet st a = some n ∧ ((m, b) : M × P) ∈ n.children

/-- Reachability along child edges (reflexive-transitive). -/
def Reaches {P M : Type} [DecidableEq P] (st : Store P M) : P → P → Prop :=
  Relation.ReflTransGen (@EdgeStep P M _ st)

theorem EdgeStep_mono {P M : Type} [DecidableEq P] {st' st : Store P M}
    (h : Substore st' st) {a b : P} (he : @EdgeStep P M _ st' a b) :
    @EdgeStep P M _ st a b := by
  obtain ⟨n', m, hg, hmem⟩ := he
  obtain ⟨n, hn, hc, _⟩ := h a n' hg
  exact ⟨n, m, hn, hc _ hmem⟩

theorem Reaches_mono {P M : Type} [DecidableEq P] {st' st : Store P M}
    (h : Substore st' st) {a b : P} (hr : @Reaches P M _ st' a b) :
    @Reaches P M _ st a b :=
  Relation.ReflTransGen.mono (fun _ _ he => EdgeStep_mono h he) hr

/-- The positions a worklist entry can delete: a removal task deletes its own
position (and things below it); a check task walks the listed children. -/
def taskPositions {P M : Type} : (P ⊕ List (M × P)) → List P
  | Sum.inl p => [p]
  | Sum.inr l => l.map Prod.snd

/-- An unconditional removal task leaves its position absent. -/
theorem rtAux_inl_removes {P M : Type} [DecidableEq P] [DecidableEq M]
    {fuel : Nat} {st st' : Store P M} {p : P}
    (h : rtAux fuel st (Sum.inl p) = some st') : storeGet st' p = none := by
  cases fuel with
  | zero => exact absurd h (by simp [rtAux])
  | succ fuel =>
      unfold rtAux at h
      cases hg : storeGet st p with
      | none =>
          rw [hg] at h
          simp at h
          exact h ▸ hg
      | some node =>
          rw [hg] at h
          replace h : ((detachFromParents (storeRemove st p) node.parents).bind fun st2 =>
              (detachFromChildren st2 node.children).bind fun st3 =>
                rtAux fuel st3 (Sum.inr node.children)) = some st' := h
          cases hd1 : detachFromParents (storeRemove st p) node.parents with
          | none => rw [hd1] at h; simp at h
          | some st2 =>
              rw [hd1, Option.some_bind] at h
              cases hd2 : detachFromChildren st2 node.children with
              | none => rw [hd2] at h; simp at h
              | some st3 =>
                  rw [hd2, Option.some_bind] at h
                  have h1 : storeGet (storeRemove st p) p = none := by
                    rw [storeGet_storeRemove, if_pos rfl]
                  have h2 : storeGet st2 p = none :=
                    Substore_none (detachFromParents_sub _ _ _ hd1) h1
                  have h3 : storeGet st3 p = none :=
                    Substore_none (detachFromChildren_sub _ _ _ hd2) h2
                  exact Substore_none (rtAux_sub fuel st3 _ st' h) h3

/-- Locality of the removal cascade: a stored position that no worklist
position reaches along child edges survives the cascade. -/
theorem rtAux_survives {P M : Type} [DecidableEq P] [DecidableEq M] :
    ∀ (fuel : Nat) (st : Store P M) (t : P ⊕ List (M × P)) (st' : Store P M) (q : P),
      rtAux fuel st t = some st' →
      (∀ p0 ∈ taskPositions t, ¬ @Reaches P M _ st p0 q) →
      storeGet st q ≠ none → storeGet st' q ≠ none := by
  intro fuel
  induction fuel with
  | zero => intro st t st' q h; exact absurd h (by simp [rtAux])
  | succ fuel ih =>
      intro st t st' q h hreach hq
      match t with
      | Sum.inl p =>
          have hpq : ¬ @Reaches P M _ st p q := hreach p (by simp [taskPositions])
          have hqp : q ≠ p := by
            intro hqp
            exact hpq (hqp ▸ Relation.ReflTransGen.refl)
          unfold rtAux at h
          cases hg : storeGet st p with
          | none =>
              rw [hg] at h
              simp at h
              exact h ▸ hq
          | some node =>
              rw [hg] at h
              replace h : ((detachFromParents (storeRemove st p) node.parents).bind fun st2 =>
                  (detachFromChildren st2 node.children).bind fun st3 =>
                    rtAux fuel st3 (Sum.inr node.children)) = some st' := h
              cases hd1 : detachFromParents (storeRemove st p) node.parents with
              | none => rw [hd1] at h; simp at h
              | some st2 =>
                  rw [hd1, Option.some_bind] at h
                  cases hd2 : detachFromChildren st2 node.children with
                  | none => rw [hd2] at h; simp at h
                  | some st3 =>
                      rw [hd2, Option.some_bind] at h
                      have hq1 : storeGet (storeRemove st p) q ≠ none := by
                        rw [storeGet_storeRemove, if_neg hqp]
                        exact hq
                      have hq2 : storeGet st2 q ≠ none :=
                        detachFromParents_keeps _ _ _ hd1 q hq1
                      have hq3 : storeGet st3 q ≠ none :=
                        detachFromChildren_keeps _ _ _ hd2 q hq2
                      have hsub3 : Substore st3 st :=
                        Substore_trans (detachFromChildren_sub _ _ _ hd2)
                          (Substore_trans (detachFromParents_sub _ _ _ hd1)
                            (storeRemove_sub st p))
                      refine ih st3 (Sum.inr node.children) st' q h ?_ hq3
                      intro c hc hrc
                      simp [taskPositions] at hc
                      obtain ⟨m, hmc⟩ := hc
                      have hstep : @EdgeStep P M _ st p c := ⟨node, m, hg, hmc⟩
                      exact hpq (Relation.ReflTransGen.head hstep (Reaches_mono hsub3 hrc))
      | Sum.inr [] =>
          unfold rtAux at h
          simp at h
          exact h ▸ hq
      | Sum.inr ((m, c) :: rest) =>
          unfold rtAux at h
          cases hg : storeGet st c with
          | none => rw [hg] at h; simp at h
          | some cn =>
              rw [hg, Option.some_bind] at h
              by_cases hp : cn.parents = []
              · rw [if_pos hp] at h
                cases hrt : rtAux fuel st (Sum.inl c) with
                | none => rw [hrt] at h; simp at h
                | some st2 =>
                    rw [hrt, Option.some_bind] at h
                    have hq2 : storeGet st2 q ≠ none := by
                      refine ih st (Sum.inl c) st2 q hrt ?_ hq
                      intro p0 hp0
                      simp [taskPositions] at hp0
                      rw [hp0]
                      exact hreach c (by simp [taskPositions])
                    have hsub2 : Substore st2 st := rtAux_sub fuel st _ st2 hrt
                    refine ih st2 (Sum.inr rest) st' q h ?_ hq2
                    intro p0 hp0 hr0
                    refine hreach p0 ?_ (Reaches_mono hsub2 hr0)
                    simp [taskPositions] at hp0 ⊢
                    rcases hp0 with ⟨m2, hm2⟩
                    exact Or.inr ⟨m2, hm2⟩
              · rw [if_neg hp, Option.some_bind] at h
                refine ih st (Sum.inr rest) st' q h ?_ hq
                intro p0 hp0
                refine hreach p0 ?_
                simp [taskPositions] at hp0 ⊢
                rcases hp0 with ⟨m2, hm2⟩
                exact Or.inr ⟨m2, hm2⟩

/-- A listed child that is parentless when the walk starts is deleted by the
orphan walk (its parents map only shrinks until its turn comes). -/
theorem rtAux_inr_removes_orphan {P M : Type} [DecidableEq P] [DecidableEq M] :
    ∀ (fuel : Nat) (st : Store P M) (tasks : List (M × P)) (st' : Store P M) (c : P),
      rtAux fuel st (Sum.inr tasks) = some st' →
      (∃ m, ((m, c) : M × P) ∈ tasks) →
      (∀ cn, storeGet st c = some cn → cn.parents = []) →
      storeGet st' c = none := by
  intro fuel
  induction fuel with
  | zero => intro st tasks st' c h; exact absurd h (by simp [rtAux])
  | succ fuel ih =>
      intro st tasks st' c h hmem hpar
      match tasks with
      | [] =>
          obtain ⟨m, hm⟩ := hmem
          simp at hm
      | (m0, c0) :: rest =>
          unfold rtAux at h
          cases hg : storeGet st c0 with
          | none => rw [hg] at h; simp at h
          | some cn0 =>
              rw [hg, Option.some_bind] at h
              by_cases hp : cn0.parents = []
              · rw [if_pos hp] at h
                cases hrt : rtAux fuel st (Sum.inl c0) with
                | none => rw [hrt] at h; simp at h
                | some st2 =>
                    rw [hrt, Option.some_bind] at h
                    have hsub2 : Substore st2 st := rtAux_sub fuel st _ st2 hrt
                    obtain ⟨m, hm⟩ := hmem
                    rcases List.mem_cons.1 hm with heq | hrest
                    · have hcc : c = c0 := congrArg Prod.snd heq
                      subst hcc
                      have h2 : storeGet st2 c = none := rtAux_inl_removes hrt
                      exact Substore_none (rtAux_sub fuel st2 _ st' h) h2
                    · refine ih st2 rest st' c h ⟨m, hrest⟩ ?_
                      intro cn hcn
                      obtain ⟨n, hn, _, hpsub⟩ := hsub2 c cn hcn
                      have := hpar n hn
                      rw [List.eq_nil_iff_forall_not_mem]
                      intro e he
                      have := hpsub e he
                      rw [hpar n hn] at this
                      simp at this
              · rw [if_neg hp, Option.some_bind] at h
                obtain ⟨m, hm⟩ := hmem
                rcases List.mem_cons.1 hm with heq | hrest
                · have hcc : c = c0 := congrArg Prod.snd heq
                  subst hcc
                  exact absurd (hpar cn0 hg) hp
                · exact ih st rest st' c h ⟨m, hrest⟩ hpar

theorem detachFromParents_parents {P M : Type} [DecidableEq P] [DecidableEq M] :
    ∀ (l : List (M × P)) (st st' : Store P M), detachFromParents st l = some st' →
      ∀ q n, storeGet st q = some n →
        ∃ n', storeGet st' q = some n' ∧ n'.parents = n.parents := by
  intro l
  induction l with
  | nil =>
      intro st st' h q n hq
      simp [detachFromParents] at h
      exact ⟨n, h ▸ hq, rfl⟩
  | cons mp rest ih =>
      intro st st' h q n hq
      obtain ⟨m, parent⟩ := mp
      unfold detachFromParents at h
      cases hm : storeModify st parent fun nn => { nn with children := removeKey nn.children m } with
      | none => rw [hm] at h; simp at h
      | some st2 =>
          rw [hm, Option.some_bind] at h
          obtain ⟨n0, hn0, hget⟩ := storeGet_storeModify hm q
          by_cases hqp : q = parent
          · have hnn0 : n0 = n := by
              rw [hqp] at hq
              rw [hq] at hn0
              exact (Option.some.inj hn0).symm
            have hq2 : storeGet st2 q = some { n with children := removeKey n.children m } := by
              rw [hget, if_pos hqp, hnn0]
            obtain ⟨n', hn', hp'⟩ := ih st2 st' h q _ hq2
            exact ⟨n', hn', hp'⟩
          · have hq2 : storeGet st2 q = some n := by
              rw [hget, if_neg hqp]
              exact hq
            exact ih st2 st' h q n hq2

theorem detachFromChildren_avoid {P M : Type} [DecidableEq P] [DecidableEq M] :
    ∀ (l : List (M × P)) (st st' : Store P M), detachFromChildren st l = some st' →
      ∀ q, (∀ m, ((m, q) : M × P) ∉ l) → storeGet st' q = storeGet st q := by
  intro l
  induction l with
  | nil =>
      intro st st' h q _
      simp [detachFromChildren] at h
      rw [h]
  | cons mp rest ih =>
      intro st st' h q havoid
      obtain ⟨m, child⟩ := mp
      unfold detachFromChildren at h
      cases hm : storeModify st child fun nn => { nn with parents := removeKey nn.parents m } with
      | none => rw [hm] at h; simp at h
      | some st2 =>
          rw [hm, Option.some_bind] at h
          have hqc : q ≠ child := by
            intro hqc
            exact havoid m (by simp [hqc])
          obtain ⟨n0, hn0, hget⟩ := storeGet_storeModify hm q
          have hq2 : storeGet st2 q = storeGet st q := by
            rw [hget, if_neg hqc]
          rw [ih st2 st' h q (fun m2 hm2 => havoid m2 (by simp [hm2])), hq2]

/-- A stored position that keeps a parent and is not reachable from any other
worklist position survives the orphan walk with a nonempty parents map. -/
theorem rtAux_keeps_parented {P M : Type} [DecidableEq P] [DecidableEq M] :
    ∀ (fuel : Nat) (st : Store P M) (t : P ⊕ List (M × P)) (st' : Store P M)
      (q : P) (qn : Node P M),
      rtAux fuel st t = some st' →
      storeGet st q = some qn →
      qn.parents ≠ [] →
      (∀ p0 ∈ taskPositions t, p0 ≠ q → ¬ @Reaches P M _ st p0 q) →
      (∀ p0, t = Sum.inl p0 → p0 ≠ q) →
      ∃ qn', storeGet st' q = some qn' ∧ qn'.parents ≠ [] := by
  intro fuel
  induction fuel with
  | zero => intro st t st' q qn h; exact absurd h (by simp [rtAux])
  | succ fuel ih =>
      intro st t st' q qn h hq hqpar hreach hinl
      match t with
      | Sum.inl p =>
          have hpq : p ≠ q := hinl p rfl
          have hnr : ¬ @Reaches P M _ st p q := hreach p (by simp [taskPositions]) hpq
          unfold rtAux at h
          cases hg : storeGet st p with
          | none =>
              rw [hg] at h
              simp at h
              exact ⟨qn, h ▸ hq, hqpar⟩
          | some node =>
              rw [hg] at h
              replace h : ((detachFromParents (storeRemove st p) node.parents).bind fun st2 =>
                  (detachFromChildren st2 node.children).bind fun st3 =>
                    rtAux fuel st3 (Sum.inr node.children)) = some st' := h
              cases hd1 : detachFromParents (storeRemove st p) node.parents with
              | none => rw [hd1] at h; simp at h
              | some st2 =>
                  rw [hd1, Option.some_bind] at h
                  cases hd2 : detachFromChildren st2 node.children with
                  | none => rw [hd2] at h; simp at h
                  | some st3 =>
                      rw [hd2, Option.some_bind] at h
                      have hq1 : storeGet (storeRemove st p) q = some qn := by
                        rw [storeGet_storeRemove, if_neg (fun hh => hpq hh.symm)]
                        exact hq
                      obtain ⟨qn2, hq2, hp2⟩ := detachFromParents_parents _ _ _ hd1 q qn hq1
                      have havoid : ∀ m, ((m, q) : M × P) ∉ node.children := by
                        intro m hmem
                        exact hnr (Relation.ReflTransGen.single ⟨node, m, hg, hmem⟩)
                      have hq3 : storeGet st3 q = some qn2 := by
                        rw [detachFromChildren_avoid _ _ _ hd2 q havoid]
                        exact hq2
                      have hsub3 : Substore st3 st :=
                        Substore_trans (detachFromChildren_sub _ _ _ hd2)
                          (Substore_trans (detachFromParents_sub _ _ _ hd1)
                            (storeRemove_sub st p))
                      refine ih st3 (Sum.inr node.children) st' q qn2 h hq3
                        (by rw [hp2]; exact hqpar) ?_ (by intro p0 hp0; simp at hp0)
                      intro c hc hcq hrc
                      simp [taskPositions] at hc
                      obtain ⟨m, hmc⟩ := hc
                      have hstep : @EdgeStep P M _ st p c := ⟨node, m, hg, hmc⟩
                      exact hnr (Relation.ReflTransGen.head hstep (Reaches_mono hsub3 hrc))
      | Sum.inr [] =>
          unfold rtAux at h
          simp at h
          exact ⟨qn, h ▸ hq, hqpar⟩
      | Sum.inr ((m0, c0) :: rest) =>
          unfold rtAux at h
          cases hg : storeGet st c0 with
          | none => rw [hg] at h; simp at h
          | some cn0 =>
              rw [hg, Option.some_bind] at h
              by_cases hp : cn0.parents = []
              · rw [if_pos hp] at h
                cases hrt : rtAux fuel st (Sum.inl c0) with
                | none => rw [hrt] at h; simp at h
                | some st2 =>
                    rw [hrt, Option.some_bind] at h
                    have hc0q : c0 ≠ q := by
                      intro hcq
                      rw [hcq, hq] at hg
                      rw [Option.some.inj hg] at hqpar
                      exact hqpar hp
                    obtain ⟨qn2, hq2, hpar2⟩ := ih st (Sum.inl c0) st2 q qn hrt hq hqpar
                      (by
                        intro p0 hp0 hp0q
                        simp [taskPositions] at hp0
                        rw [hp0]
                        exact hreach c0 (by simp [taskPositions]) hc0q)
                      (by
                        intro p0 hp0
                        cases hp0
                        exact hc0q)
                    have hsub2 : Substore st2 st := rtAux_sub fuel st _ st2 hrt
                    refine ih st2 (Sum.inr rest) st' q qn2 h hq2 hpar2 ?_
                      (by intro p0 hp0; simp at hp0)
                    intro p0 hp0 hp0q hr0
                    refine hreach p0 ?_ hp0q (Reaches_mono hsub2 hr0)
                    simp [taskPositions] at hp0 ⊢
                    rcases hp0 with ⟨m2, hm2⟩
                    exact Or.inr ⟨m2, hm2⟩
              · rw [if_neg hp, Option.some_bind] at h
                refine ih st (Sum.inr rest) st' q qn h hq hqpar ?_
                  (by intro p0 hp0; simp at hp0)
                intro p0 hp0 hp0q
                refine hreach p0 ?_ hp0q
                simp [taskPositions] at hp0 ⊢
                rcases hp0 with ⟨m2, hm2⟩
                exact Or.inr ⟨m2, hm2⟩

theorem no_edge_of_empty_children {P M : Type} [DecidableEq P] {st : Store P M}
    {a : P} {n : Node P M} (hg : storeGet st a = some n) (hn : n.children = []) :
    ∀ c, ¬ @EdgeStep P M _ st a c := by
  rintro c ⟨n2, m, hg2, hmem⟩
  rw [hg] at hg2
  rw [(Option.some.inj hg2).symm, hn] at hmem
  simp at hmem

theorem Reaches_eq_of_no_edge {P M : Type} [DecidableEq P] (st : Store P M) (a b : P)
    (hne : ∀ c, ¬ @EdgeStep P M _ st a c) (h : @Reaches P M _ st a b) : b = a := by
  rcases Relation.ReflTransGen.cases_head h with heq | ⟨c, hac, _⟩
  · exact heq.symm
  · exact absurd hac (hne c)

/-- C5 (amended): after `pruning(pre_move_position, m)` on a store containing
the pre-move node (with `st2`/`st3` the stores after the two detach loops):
(a) the pre-move node is removed;
(b) the child reached by the played move is retained — even with an empty
    parents map — PROVIDED it is not reachable along child edges from any
    unrealized child of the removed node (the counterexample shows it is
    deleted otherwise);
(c) every unrealized child whose parents map is empty after the detach step
    is deleted (recursively, by `remove_tree`);
(d) every unrealized child that still has a remaining parent after the detach
    step stays in the store with a nonempty parents map, PROVIDED it is not
    reachable from another unrealized child (otherwise a sibling's cascade
    may orphan and delete it). -/
theorem C5_pruning_effects {P M : Type} [DecidableEq P] [DecidableEq M]
    (fuel : Nat) (st st2 st3 st' : Store P M) (cur : P) (mv : M) (node : Node P M)
    (hcur : storeGet st cur = some node)
    (hd1 : detachFromParents (storeRemove st cur) node.parents = some st2)
    (hd2 : detachFromChildren st2 node.children = some st3)
    (hrt : rtAux fuel st3 (Sum.inr (node.children.filter fun mc => mc.1 ≠ mv)) = some st')
    (hprune : pruning fuel st (some cur) mv = some st') :
    storeGet st' cur = none ∧
    (∀ pc pcn, ((mv, pc) : M × P) ∈ node.children → storeGet st3 pc = some pcn →
      (∀ mc2 ∈ node.children.filter fun mc => mc.1 ≠ mv,
        ¬ @Reaches P M _ st3 mc2.2 pc) →
      storeGet st' pc ≠ none) ∧
    (∀ m' c, ((m', c) : M × P) ∈ node.children → m' ≠ mv →
      (∀ cn3, storeGet st3 c = some cn3 → cn3.parents = []) →
      storeGet st' c = none) ∧
    (∀ m' c cn3, ((m', c) : M × P) ∈ node.children → m' ≠ mv →
      storeGet st3 c = some cn3 → cn3.parents ≠ [] →
      (∀ mc2 ∈ node.children.filter fun mc => mc.1 ≠ mv,
        mc2.2 ≠ c → ¬ @Reaches P M _ st3 mc2.2 c) →
      ∃ cn', storeGet st' c = some cn' ∧ cn'.parents ≠ []) := by
  refine ⟨?_, ?_, ?_, ?_⟩
  · have h1 : storeGet (storeRemove st cur) cur = none := by
      rw [storeGet_storeRemove, if_pos rfl]
    have h2 : storeGet st2 cur = none :=
      Substore_none (detachFromParents_sub _ _ _ hd1) h1
    have h3 : storeGet st3 cur = none :=
      Substore_none (detachFromChildren_sub _ _ _ hd2) h2
    exact Substore_none (rtAux_sub fuel st3 _ st' hrt) h3
  · intro pc pcn hpcmem hpc3 hreach
    refine rtAux_survives fuel st3 _ st' pc hrt ?_ (by rw [hpc3]; simp)
    intro p0 hp0
    simp only [taskPositions, List.mem_map] at hp0
    obtain ⟨mc2, hmc2, hsnd⟩ := hp0
    exact hsnd ▸ hreach mc2 hmc2
  · intro m' c hcmem hne hparc
    refine rtAux_inr_removes_orphan fuel st3 _ st' c hrt ⟨m', ?_⟩ hparc
    rw [List.mem_filter]
    exact ⟨hcmem, by simp [hne]⟩
  · intro m' c cn3 hcmem hne hc3 hcp hreach
    refine rtAux_keeps_parented fuel st3 _ st' c cn3 hrt hc3 hcp ?_
      (by intro p0 hp0; simp at hp0)
    intro p0 hp0 hp0c
    simp only [taskPositions, List.mem_map] at hp0
    obtain ⟨mc2, hmc2, hsnd⟩ := hp0
    exact hsnd ▸ hreach mc2 hmc2 (by rw [hsnd]; exact hp0c)

/-- Witness stores for the amended pruning theorem: pre-move node P (position
0) with realized child A (move 1 → 10), unrealized still-parented child B
(move 2 → 20, second parent X at 30) and unrealized orphan child C
(move 3 → 40). -/
def c5wA : Node Nat Nat :=
  { player := .two, local_attempts := 1, local_wins := 0, local_losses := 0,
    children := [], parents := [(1, 0)] }

def c5wB : Node Nat Nat :=
  { player := .two, local_attempts := 1, local_wins := 0, local_losses := 0,
    children := [], parents := [(2, 0), (4, 30)] }

def c5wC : Node Nat Nat :=
  { player := .two, local_attempts := 1, local_wins := 0, local_losses := 0,
    children := [], parents := [(3, 0)] }

def c5wX : Node Nat Nat :=
  { player := .one, local_attempts := 0, local_wins := 0, local_losses := 0,
    children := [(4, 20)], parents := [] }

def c5wP : Node Nat Nat :=
  { player := .one, local_attempts := 1, local_wins := 0, local_losses := 0,
    children := [(1, 10), (2, 20), (3, 40)], parents := [] }

def c5wSt : Store Nat Nat :=
  [(0, c5wP), (10, c5wA), (20, c5wB), (30, c5wX), (40, c5wC)]

/-- The store after removing position 0 and detaching its edges. -/
def c5wSt3 : Store Nat Nat :=
  [(10, { c5wA with parents := [] }), (20, { c5wB with parents := [(4, 30)] }),
   (30, c5wX), (40, { c5wC with parents := [] })]

/-- The store after the whole pruning: A and B survive, C is deleted. -/
def c5wStF : Store Nat Nat :=
  [(10, { c5wA with parents := [] }), (20, { c5wB with parents := [(4, 30)] }),
   (30, c5wX)]

/-- C5 witness: the amended theorem applied to the concrete scenario — the
pre-move node at 0 is removed, the realized child 10 survives (even though
its parents map became empty), the orphaned unrealized child 40 is deleted,
and the transposition-parented unrealized child 20 stays with its remaining
parent. -/
theorem C5_pruning_effects_witness :
    (storeGet c5wSt 0 = some c5wP ∧
     detachFromParents (storeRemove c5wSt 0) c5wP.parents = some (storeRemove c5wSt 0) ∧
     detachFromChildren (storeRemove c5wSt 0) c5wP.children = some c5wSt3 ∧
     rtAux 9 c5wSt3 (Sum.inr (c5wP.children.filter fun mc => mc.1 ≠ 1)) = some c5wStF ∧
     pruning 9 c5wSt (some 0) 1 = some c5wStF) ∧
    storeGet c5wStF 0 = none ∧
    storeGet c5wStF 10 ≠ none ∧
    storeGet c5wStF 40 = none ∧
    (∃ cn', storeGet c5wStF 20 = some cn' ∧ cn'.parents ≠ []) := by
  have hfilter : c5wP.children.filter (fun mc => mc.1 ≠ 1) = [(2, 20), (3, 40)] := by decide
  have h20 : storeGet c5wSt3 20 = some { c5wB with parents := [(4, 30)] } := by decide
  have h40 : storeGet c5wSt3 40 = some { c5wC with parents := [] } := by decide
  have hne20 := no_edge_of_empty_children h20 (by decide)
  have hne40 := no_edge_of_empty_children h40 (by decide)
  have h := C5_pruning_effects 9 c5wSt (storeRemove c5wSt 0) c5wSt3 c5wStF 0 1 c5wP
    (by decide) (by decide) (by decide) (by decide) (by decide)
  refine ⟨⟨by decide, by decide, by decide, by decide, by decide⟩, h.1, ?_, ?_, ?_⟩
  · refine h.2.1 10 { c5wA with parents := [] } (by decide) (by decide) ?_
    intro mc2 hmc2
    rw [hfilter] at hmc2
    have hcases : mc2 = ((2 : Nat), (20 : Nat)) ∨ mc2 = (3, 40) := by simpa using hmc2
    rcases hcases with rfl | rfl
    · intro hr
      have := Reaches_eq_of_no_edge _ _ _ hne20 hr
      exact absurd this (by decide)
    · intro hr
      have := Reaches_eq_of_no_edge _ _ _ hne40 hr
      exact absurd this (by decide)
  · refine h.2.2.1 3 40 (by decide) (by decide) ?_
    intro cn3 hcn3
    rw [h40] at hcn3
    rw [← Option.some.inj hcn3]
  · refine h.2.2.2 2 20 { c5wB with parents := [(4, 30)] } (by decide) (by decide)
      (by decide) (by decide) ?_
    intro mc2 hmc2 hne2
    rw [hfilter] at hmc2
    have hcases : mc2 = ((2 : Nat), (20 : Nat)) ∨ mc2 = (3, 40) := by simpa using hmc2
    rcases hcases with rfl | rfl
    · exact absurd rfl hne2
    · intro hr
      have := Reaches_eq_of_no_edge _ _ _ hne40 hr
      exact absurd this (by decide)

/-- The game interface consumed by the engine (`game::GameState`): applying a
move as a given player, enumerating legal moves for a player, and terminal
detection. -/
structure GameOps (P M : Type) : Type where
  update : P → M → PlayerEnum → P
  all_legal_moves : P → PlayerEnum → List M
  try_conclude : P → PlayerEnum → Option Conclusion

/-- `MonteCarloTreeSearchPlayer::selection_and_expansion`, fuelled.  Each loop
iteration: create the node for the current position (with the incoming parent
edge) or merge the new parent edge into an existing node; point the parent's
children map at this position (`expect("Blah")`); return the position if it
is an unvisited leaf; otherwise pick a move by UCT value (returning the
position when there is no legal move) and descend — applying the chosen move
with the loop's CURRENT player while the legal moves were enumerated for the
NODE's stored player.  The loop body is split into `selMerge` (create the
node for the current position, or merge the new parent edge into an existing
node), `selLink` (point the parent at it) and the driver below. -/
def selMerge {P M : Type} [DecidableEq P] [DecidableEq M] (st : Store P M)
    (current_state : P) (current_player : PlayerEnum)
    (current_parent : Option (M × P)) : Store P M :=
  match storeGet st current_state with
  | none => setKey st current_state (Node.new current_player current_parent)
  | some n =>
      match current_parent with
      | some (gm, par) =>
          setKey st current_state { n with parents := setKey n.parents gm par }
      | none => st

/-- "Make sure that the parent points to this move": set the parent node's
child edge for the incoming move (`expect("Blah")` on a missing parent). -/
def selLink {P M : Type} [DecidableEq P] [DecidableEq M] (st1 : Store P M)
    (current_state : P) (current_parent : Option (M × P)) : Option (Store P M) :=
  match current_parent with
  | some (gm, par) =>
      storeModify st1 par fun pn =>
        { pn with children := setKey pn.children gm current_state }
  | none => some st1

noncomputable def selection_and_expansion {P M : Type} [DecidableEq P] [DecidableEq M]
    (G : GameOps P M) (c : ℝ) (afuel : Nat) :
    Nat → Store P M → Option (M × P) → PlayerEnum → P → Option (P × Store P M)
  | 0, _, _, _, _ => none
  | fuel + 1, st, current_parent, current_player, current_state =>
      (selLink (selMerge st current_state current_player current_parent)
          current_state current_parent).bind fun st2 =>
      (storeGet st2 current_state).bind fun node =>
      if node.children = [] ∧ node.local_attempts = 0 then some (current_state, st2)
      else
        (choose_move_by_uct_value st2 afuel c node
            (G.all_legal_moves current_state node.player)).bind fun cm =>
          match cm with
          | none => some (current_state, st2)
          | some gm =>
              selection_and_expansion G c afuel fuel st2 (some (gm, current_state))
                current_player.other (G.update current_state gm current_player)

/-- The three terminal outcomes a rollout can record. -/
inductive RolloutResult : Type
  | win
  | loss
  | draw
deriving DecidableEq, Repr

/-- The backfill in `choose_move`: increment the selected node's `u8`
counters according to the rollout's outcome
(`get_mut(..).expect("Dangling pointer!")`). -/
def recordRollout {P M : Type} [DecidableEq P] (st : Store P M) (p : P)
    (r : RolloutResult) : Option (Store P M) :=
  storeModify st p fun n =>
    match r with
    | RolloutResult.win =>
        { n with local_wins := (n.local_wins + 1) % 256,
                 local_attempts := (n.local_attempts + 1) % 256 }
    | RolloutResult.loss =>
        { n with local_losses := (n.local_losses + 1) % 256,
                 local_attempts := (n.local_attempts + 1) % 256 }
    | RolloutResult.draw =>
        { n with local_attempts := (n.local_attempts + 1) % 256 }

/-- The simulation loop of `choose_move`: from the selected leaf, play random
legal moves until a conclusion, judged from the perspective of the selected
node's player — a win for that player records a win, a win for the other
records a loss, a draw records only the attempt.  The relation holds for
every outcome some sequence of random draws can produce. -/
inductive Playout {P M : Type} (G : GameOps P M) (perspective : PlayerEnum) :
    P → PlayerEnum → RolloutResult → Prop
  | winSelf {p : P} {cp : PlayerEnum} {w : PlayerEnum} :
      G.try_conclude p cp = some (Conclusion.win w) → w = perspective →
      Playout G perspective p cp RolloutResult.win
  | winOther {p : P} {cp : PlayerEnum} {w : PlayerEnum} :
      G.try_conclude p cp = some (Conclusion.win w) → w ≠ perspective →
      Playout G perspective p cp RolloutResult.loss
  | draws {p : P} {cp : PlayerEnum} :
      G.try_conclude p cp = some Conclusion.draw →
      Playout G perspective p cp RolloutResult.draw
  | step {p : P} {cp : PlayerEnum} {m : M} {r : RolloutResult} :
      G.try_conclude p cp = none → m ∈ G.all_legal_moves p cp →
      Playout G perspective (G.update p m cp) cp.other r →
      Playout G perspective p cp r

/-- Store states reachable from the empty store by completed engine
iterations: each step is one pass of the `choose_move` loop — a completed
`selection_and_expansion` from the root, then a rollout (any outcome the
random playout can produce from the selected leaf, judged from the selected
node's player) recorded into that node's counters.  `pruning` and
`remove_tree` steps are also engine operations; they are not needed for the
traces below. -/
inductive EngineReach {P M : Type} [DecidableEq P] [DecidableEq M]
    (G : GameOps P M) (c : ℝ) (afuel : Nat) (root : P) (rootPlayer : PlayerEnum) :
    Store P M → Prop
  | empty : EngineReach G c afuel root rootPlayer []
  | select_and_record {st st1 st2 : Store P M} {leaf : P} {leafNode : Node P M}
      {r : RolloutResult} {fuel : Nat} :
      EngineReach G c afuel root rootPlayer st →
      selection_and_expansion G c afuel fuel st none rootPlayer root = some (leaf, st1) →
      storeGet st1 leaf = some leafNode →
      Playout G leafNode.player leaf leafNode.player r →
      recordRollout st1 leaf r = some st2 →
      EngineReach G c afuel root rootPlayer st2

/-- The edge-mutuality law of the code's own (commented-out) `audit` check:
every child edge `m → B` of `A` is mirrored by a parent edge `m → A` of `B`,
and conversely. -/
def mutualityHolds {P M : Type} [DecidableEq P] [DecidableEq M] (st : Store P M) : Bool :=
  st.all fun pn =>
    (pn.2.children.all fun mc =>
      match storeGet st mc.2 with
      | some cnode => lookupKey cnode.parents mc.1 == some pn.1
      | none => false) &&
    (pn.2.parents.all fun mp =>
      match storeGet st mp.2 with
      | some pnode => lookupKey pnode.children mp.1 == some pn.1
      | none => false)

theorem maxByKeyLast_two_tie {A : Type} (a b : A) (u : ℝ) :
    maxByKeyLast [(a, u), (b, u)] = some (b, u) := by
  show (if ((a, u)).2 ≤ ((b, u)).2 then some (b, u) else some (a, u)) = some (b, u)
  split
  · rfl
  · case isFalse hcon => exact absurd le_rfl hcon

theorem maxByKeyLast_two_lt {A : Type} (a b : A) (u : ℝ) (h : u < f64MAX) :
    maxByKeyLast [(a, f64MAX), (b, u)] = some (a, f64MAX) := by
  show (if ((a, f64MAX)).2 ≤ ((b, u)).2 then some (b, u) else some (a, f64MAX)) =
    some (a, f64MAX)
  split
  · case isTrue hcon => exact absurd hcon (not_le.2 h)
  · rfl

theorem f64MAX_pos : (0 : ℝ) < f64MAX := by
  unfold f64MAX
  norm_num

/-- A small concrete game with a parity transposition: position 2 is reached
both after one ply (move 1 from the root) and after two plies (moves 2 then 3),
so the player to act there differs by path; applying move 4 at position 2
yields position 4 or 3 depending on who applies it. -/
def g7 : GameOps Nat Nat where
  update := fun p m player =>
    match p, m, player with
    | 0, 1, _ => 2
    | 0, 2, _ => 1
    | 1, 3, _ => 2
    | 2, 4, PlayerEnum.one => 4
    | 2, 4, PlayerEnum.two => 3
    | _, _, _ => 99
  all_legal_moves := fun p _ =>
    match p with
    | 0 => [1, 2]
    | 1 => [3]
    | 2 => [4]
    | _ => []
  try_conclude := fun p _ =>
    match p with
    | 3 => some Conclusion.draw
    | 4 => some Conclusion.draw
    | _ => none

def c7R0 : Node Nat Nat := Node.new PlayerEnum.one none

def c7StA : Store Nat Nat := [(0, c7R0)]

def c7R1 : Node Nat Nat :=
  { player := PlayerEnum.one, local_attempts := 1, local_wins := 0, local_losses := 0,
    children := [], parents := [] }

def c7StB : Store Nat Nat := [(0, c7R1)]

def c7B0 : Node Nat Nat :=
  { player := PlayerEnum.two, local_attempts := 0, local_wins := 0, local_losses := 0,
    children := [], parents := [(2, 0)] }

def c7R1c : Node Nat Nat :=
  { player := PlayerEnum.one, local_attempts := 1, local_wins := 0, local_losses := 0,
    children := [(2, 1)], parents := [] }

def c7StC : Store Nat Nat := [(0, c7R1c), (1, c7B0)]

def c7B1 : Node Nat Nat :=
  { player := PlayerEnum.two, local_attempts := 1, local_wins := 0, local_losses := 0,
    children := [], parents := [(2, 0)] }

def c7StD : Store Nat Nat := [(0, c7R1c), (1, c7B1)]

def c7A0 : Node Nat Nat :=
  { player := PlayerEnum.one, local_attempts := 0, local_wins := 0, local_losses := 0,
    children := [], parents := [(3, 1)] }

def c7B1c : Node Nat Nat :=
  { player := PlayerEnum.two, local_attempts := 1, local_wins := 0, local_losses := 0,
    children := [(3, 2)], parents := [(2, 0)] }

def c7StE : Store Nat Nat := [(0, c7R1c), (1, c7B1c), (2, c7A0)]

def c7A1 : Node Nat Nat :=
  { player := PlayerEnum.one, local_attempts := 1, local_wins := 0, local_losses := 0,
    children := [], parents := [(3, 1)] }

def c7StF : Store Nat Nat := [(0, c7R1c), (1, c7B1c), (2, c7A1)]

def c7A1p : Node Nat Nat :=
  { player := PlayerEnum.one, local_attempts := 1, local_wins := 0, local_losses := 0,
    children := [], parents := [(3, 1), (1, 0)] }

def c7R2 : Node Nat Nat :=
  { player := PlayerEnum.one, local_attempts := 1, local_wins := 0, local_losses := 0,
    children := [(2, 1), (1, 2)], parents := [] }

def c7StG : Store Nat Nat := [(0, c7R2), (1, c7B1c), (2, c7A1p)]

def c7Z20 : Node Nat Nat :=
  { player := PlayerEnum.one, local_attempts := 0, local_wins := 0, local_losses := 0,
    children := [], parents := [(4, 2)] }

def c7A2 : Node Nat Nat :=
  { player := PlayerEnum.one, local_attempts := 1, local_wins := 0, local_losses := 0,
    children := [(4, 3)], parents := [(3, 1), (1, 0)] }

def c7StH : Store Nat Nat := [(0, c7R2), (1, c7B1c), (2, c7A2), (3, c7Z20)]

def c7Z21 : Node Nat Nat :=
  { player := PlayerEnum.one, local_attempts := 1, local_wins := 0, local_losses := 0,
    children := [], parents := [(4, 2)] }

def c7StI : Store Nat Nat := [(0, c7R2), (1, c7B1c), (2, c7A2), (3, c7Z21)]

def c7Z10 : Node Nat Nat :=
  { player := PlayerEnum.two, local_attempts := 0, local_wins := 0, local_losses := 0,
    children := [], parents := [(4, 2)] }

def c7A3 : Node Nat Nat :=
  { player := PlayerEnum.one, local_attempts := 1, local_wins := 0, local_losses := 0,
    children := [(4, 4)], parents := [(3, 1), (1, 0)] }

def c7StJ : Store Nat Nat := [(0, c7R2), (1, c7B1c), (2, c7A3), (3, c7Z21), (4, c7Z10)]

def c7Z11 : Node Nat Nat :=
  { player := PlayerEnum.two, local_attempts := 1, local_wins := 0, local_losses := 0,
    children := [], parents := [(4, 2)] }

def c7StK : Store Nat Nat := [(0, c7R2), (1, c7B1c), (2, c7A3), (3, c7Z21), (4, c7Z11)]

theorem c7_sel1 :
    selection_and_expansion g7 0 5 9 [] none PlayerEnum.one 0 = some (0, c7StA) := rfl

theorem selection_and_expansion_succ {P M : Type} [DecidableEq P] [DecidableEq M]
    (G : GameOps P M) (c : ℝ) (afuel fuel : Nat) (st : Store P M)
    (current_parent : Option (M × P)) (current_player : PlayerEnum) (current_state : P) :
    selection_and_expansion G c afuel (fuel + 1) st current_parent current_player current_state =
      (selLink (selMerge st current_state current_player current_parent)
          current_state current_parent).bind fun st2 =>
      (storeGet st2 current_state).bind fun node =>
      if node.children = [] ∧ node.local_attempts = 0 then some (current_state, st2)
      else
        (choose_move_by_uct_value st2 afuel c node
            (G.all_legal_moves current_state node.player)).bind fun cm =>
          match cm with
          | none => some (current_state, st2)
          | some gm =>
              selection_and_expansion G c afuel fuel st2 (some (gm, current_state))
                current_player.other (G.update current_state gm current_player) := rfl

theorem sel_step_return {P M : Type} [DecidableEq P] [DecidableEq M]
    (G : GameOps P M) (c : ℝ) (afuel fuel : Nat) (st st2 : Store P M)
    (cp : Option (M × P)) (player : PlayerEnum) (cur : P) (node : Node P M)
    (h1 : selLink (selMerge st cur player cp) cur cp = some st2)
    (h2 : storeGet st2 cur = some node)
    (h3 : node.children = [] ∧ node.local_attempts = 0) :
    selection_and_expansion G c afuel (fuel + 1) st cp player cur = some (cur, st2) := by
  rw [selection_and_expansion_succ, h1, Option.some_bind, h2, Option.some_bind, if_pos h3]

theorem sel_step_stuck {P M : Type} [DecidableEq P] [DecidableEq M]
    (G : GameOps P M) (c : ℝ) (afuel fuel : Nat) (st st2 : Store P M)
    (cp : Option (M × P)) (player : PlayerEnum) (cur : P) (node : Node P M)
    (h1 : selLink (selMerge st cur player cp) cur cp = some st2)
    (h2 : storeGet st2 cur = some node)
    (h3 : ¬(node.children = [] ∧ node.local_attempts = 0))
    (h4 : choose_move_by_uct_value st2 afuel c node
        (G.all_legal_moves cur node.player) = some none) :
    selection_and_expansion G c afuel (fuel + 1) st cp player cur = some (cur, st2) := by
  rw [selection_and_expansion_succ, h1, Option.some_bind, h2, Option.some_bind, if_neg h3,
    h4, Option.some_bind]

theorem sel_step_descend {P M : Type} [DecidableEq P] [DecidableEq M]
    (G : GameOps P M) (c : ℝ) (afuel fuel : Nat) (st st2 : Store P M)
    (cp : Option (M × P)) (player : PlayerEnum) (cur : P) (node : Node P M) (gm : M)
    (h1 : selLink (selMerge st cur player cp) cur cp = some st2)
    (h2 : storeGet st2 cur = some node)
    (h3 : ¬(node.children = [] ∧ node.local_attempts = 0))
    (h4 : choose_move_by_uct_value st2 afuel c node
        (G.all_legal_moves cur node.player) = some (some gm)) :
    selection_and_expansion G c afuel (fuel + 1) st cp player cur =
      selection_and_expansion G c afuel fuel st2 (some (gm, cur)) player.other
        (G.update cur gm player) := by
  rw [selection_and_expansion_succ, h1, Option.some_bind, h2, Option.some_bind, if_neg h3,
    h4, Option.some_bind]

theorem c7_choose2 :
    choose_move_by_uct_value c7StB 5 0 c7R1 [1, 2] = some (some 2) := by
  have e : choose_move_by_uct_value c7StB 5 0 c7R1 [1, 2] =
      some ((maxByKeyLast [((1 : Nat), f64MAX), (2, f64MAX)]).map Prod.fst) := rfl
  rw [e, maxByKeyLast_two_tie]
  rfl

theorem c7_sel2 :
    selection_and_expansion g7 0 5 9 c7StB none PlayerEnum.one 0 = some (1, c7StC) := by
  have s1 : selection_and_expansion g7 0 5 9 c7StB none PlayerEnum.one 0 =
      selection_and_expansion g7 0 5 8 c7StB (some (2, 0)) PlayerEnum.two 1 :=
    sel_step_descend g7 0 5 8 c7StB c7StB none PlayerEnum.one 0 c7R1 2 rfl rfl
      (by decide) c7_choose2
  have s2 : selection_and_expansion g7 0 5 8 c7StB (some (2, 0)) PlayerEnum.two 1 =
      some (1, c7StC) :=
    sel_step_return g7 0 5 7 c7StB c7StC (some (2, 0)) PlayerEnum.two 1 c7B0 rfl rfl
      (by decide)
  exact s1.trans s2

theorem c7_choose3 :
    choose_move_by_uct_value c7StD 5 0 c7R1c [1, 2] = some (some 2) := by
  have e : choose_move_by_uct_value c7StD 5 0 c7R1c [1, 2] =
      some ((maxByKeyLast [((1 : Nat), f64MAX), (2, f64MAX)]).map Prod.fst) := rfl
  rw [e, maxByKeyLast_two_tie]
  rfl

theorem c7_choose4 :
    choose_move_by_uct_value c7StF 5 0 c7R1c [1, 2] = some (some 1) := by
  have e : choose_move_by_uct_value c7StF 5 0 c7R1c [1, 2] =
      some ((maxByKeyLast [((1 : Nat), f64MAX),
        (2, ((0 : Nat) : ℝ) / ((1 : Nat) : ℝ) +
          0 * Real.sqrt (Real.log ((2 : Nat) : ℝ) / ((1 : Nat) : ℝ)))]).map Prod.fst) := rfl
  have hu : ((0 : Nat) : ℝ) / ((1 : Nat) : ℝ) +
      0 * Real.sqrt (Real.log ((2 : Nat) : ℝ) / ((1 : Nat) : ℝ)) = 0 := by norm_num
  rw [e, hu, maxByKeyLast_two_lt 1 2 0 f64MAX_pos]
  rfl

theorem c7_choose5 :
    choose_move_by_uct_value c7StI 5 0 c7R2 [1, 2] = some (some 2) := by
  have e : choose_move_by_uct_value c7StI 5 0 c7R2 [1, 2] =
      some ((maxByKeyLast [((1 : Nat),
        ((0 : Nat) : ℝ) / ((1 : Nat) : ℝ) +
          0 * Real.sqrt (Real.log ((3 : Nat) : ℝ) / ((1 : Nat) : ℝ))),
        (2, ((0 : Nat) : ℝ) / ((2 : Nat) : ℝ) +
          0 * Real.sqrt (Real.log ((3 : Nat) : ℝ) / ((2 : Nat) : ℝ)))]).map Prod.fst) := rfl
  have hu1 : ((0 : Nat) : ℝ) / ((1 : Nat) : ℝ) +
      0 * Real.sqrt (Real.log ((3 : Nat) : ℝ) / ((1 : Nat) : ℝ)) = 0 := by norm_num
  have hu2 : ((0 : Nat) : ℝ) / ((2 : Nat) : ℝ) +
      0 * Real.sqrt (Real.log ((3 : Nat) : ℝ) / ((2 : Nat) : ℝ)) = 0 := by norm_num
  rw [e, hu1, hu2, maxByKeyLast_two_tie]
  rfl

theorem c7_sel3 :
    selection_and_expansion g7 0 5 9 c7StD none PlayerEnum.one 0 = some (2, c7StE) := by
  have s1 : selection_and_expansion g7 0 5 9 c7StD none PlayerEnum.one 0 =
      selection_and_expansion g7 0 5 8 c7StD (some (2, 0)) PlayerEnum.two 1 :=
    sel_step_descend g7 0 5 8 c7StD c7StD none PlayerEnum.one 0 c7R1c 2 rfl rfl
      (by decide) c7_choose3
  have s2 : selection_and_expansion g7 0 5 8 c7StD (some (2, 0)) PlayerEnum.two 1 =
      selection_and_expansion g7 0 5 7 c7StD (some (3, 1)) PlayerEnum.one 2 :=
    sel_step_descend g7 0 5 7 c7StD c7StD (some (2, 0)) PlayerEnum.two 1 c7B1 3 rfl rfl
      (by decide) rfl
  have s3 : selection_and_expansion g7 0 5 7 c7StD (some (3, 1)) PlayerEnum.one 2 =
      some (2, c7StE) :=
    sel_step_return g7 0 5 6 c7StD c7StE (some (3, 1)) PlayerEnum.one 2 c7A0 rfl rfl
      (by decide)
  exact (s1.trans s2).trans s3

theorem c7_sel4 :
    selection_and_expansion g7 0 5 9 c7StF none PlayerEnum.one 0 = some (3, c7StH) := by
  have s1 : selection_and_expansion g7 0 5 9 c7StF none PlayerEnum.one 0 =
      selection_and_expansion g7 0 5 8 c7StF (some (1, 0)) PlayerEnum.two 2 :=
    sel_step_descend g7 0 5 8 c7StF c7StF none PlayerEnum.one 0 c7R1c 1 rfl rfl
      (by decide) c7_choose4
  have s2 : selection_and_expansion g7 0 5 8 c7StF (some (1, 0)) PlayerEnum.two 2 =
      selection_and_expansion g7 0 5 7 c7StG (some (4, 2)) PlayerEnum.one 3 :=
    sel_step_descend g7 0 5 7 c7StF c7StG (some (1, 0)) PlayerEnum.two 2 c7A1p 4 rfl rfl
      (by decide) rfl
  have s3 : selection_and_expansion g7 0 5 7 c7StG (some (4, 2)) PlayerEnum.one 3 =
      some (3, c7StH) :=
    sel_step_return g7 0 5 6 c7StG c7StH (some (4, 2)) PlayerEnum.one 3 c7Z20 rfl rfl
      (by decide)
  exact (s1.trans s2).trans s3

theorem c7_sel5 :
    selection_and_expansion g7 0 5 9 c7StI none PlayerEnum.one 0 = some (4, c7StJ) := by
  have s1 : selection_and_expansion g7 0 5 9 c7StI none PlayerEnum.one 0 =
      selection_and_expansion g7 0 5 8 c7StI (some (2, 0)) PlayerEnum.two 1 :=
    sel_step_descend g7 0 5 8 c7StI c7StI none PlayerEnum.one 0 c7R2 2 rfl rfl
      (by decide) c7_choose5
  have s2 : selection_and_expansion g7 0 5 8 c7StI (some (2, 0)) PlayerEnum.two 1 =
      selection_and_expansion g7 0 5 7 c7StI (some (3, 1)) PlayerEnum.one 2 :=
    sel_step_descend g7 0 5 7 c7StI c7StI (some (2, 0)) PlayerEnum.two 1 c7B1c 3 rfl rfl
      (by decide) rfl
  have s3 : selection_and_expansion g7 0 5 7 c7StI (some (3, 1)) PlayerEnum.one 2 =
      selection_and_expansion g7 0 5 6 c7StI (some (4, 2)) PlayerEnum.two 4 :=
    sel_step_descend g7 0 5 6 c7StI c7StI (some (3, 1)) PlayerEnum.one 2 c7A2 4 rfl rfl
      (by decide) rfl
  have s4 : selection_and_expansion g7 0 5 6 c7StI (some (4, 2)) PlayerEnum.two 4 =
      some (4, c7StJ) :=
    sel_step_return g7 0 5 5 c7StI c7StJ (some (4, 2)) PlayerEnum.two 4 c7Z10 rfl rfl
      (by decide)
  exact ((s1.trans s2).trans s3).trans s4

theorem c7_po1 : Playout g7 PlayerEnum.one 0 PlayerEnum.one RolloutResult.draw := by
  apply Playout.step rfl (show (2 : Nat) ∈ g7.all_legal_moves 0 PlayerEnum.one by decide)
  apply Playout.step rfl (show (3 : Nat) ∈ g7.all_legal_moves 1 PlayerEnum.two by decide)
  apply Playout.step rfl (show (4 : Nat) ∈ g7.all_legal_moves 2 PlayerEnum.one by decide)
  exact Playout.draws rfl

theorem c7_po2 : Playout g7 PlayerEnum.two 1 PlayerEnum.two RolloutResult.draw := by
  apply Playout.step rfl (show (3 : Nat) ∈ g7.all_legal_moves 1 PlayerEnum.two by decide)
  apply Playout.step rfl (show (4 : Nat) ∈ g7.all_legal_moves 2 PlayerEnum.one by decide)
  exact Playout.draws rfl

theorem c7_po3 : Playout g7 PlayerEnum.one 2 PlayerEnum.one RolloutResult.draw := by
  apply Playout.step rfl (show (4 : Nat) ∈ g7.all_legal_moves 2 PlayerEnum.one by decide)
  exact Playout.draws rfl

theorem c7_po4 : Playout g7 PlayerEnum.one 3 PlayerEnum.one RolloutResult.draw :=
  Playout.draws rfl

theorem c7_po5 : Playout g7 PlayerEnum.two 4 PlayerEnum.two RolloutResult.draw :=
  Playout.draws rfl

theorem c7_reach : EngineReach g7 0 5 0 PlayerEnum.one c7StK := by
  have h1 : EngineReach g7 0 5 0 PlayerEnum.one c7StB :=
    EngineReach.select_and_record EngineReach.empty c7_sel1
      (show storeGet c7StA (0 : Nat) = some c7R0 from rfl) c7_po1
      (show recordRollout c7StA (0 : Nat) RolloutResult.draw = some c7StB from rfl)
  have h2 : EngineReach g7 0 5 0 PlayerEnum.one c7StD :=
    EngineReach.select_and_record h1 c7_sel2
      (show storeGet c7StC (1 : Nat) = some c7B0 from rfl) c7_po2
      (show recordRollout c7StC (1 : Nat) RolloutResult.draw = some c7StD from rfl)
  have h3 : EngineReach g7 0 5 0 PlayerEnum.one c7StF :=
    EngineReach.select_and_record h2 c7_sel3
      (show storeGet c7StE (2 : Nat) = some c7A0 from rfl) c7_po3
      (show recordRollout c7StE (2 : Nat) RolloutResult.draw = some c7StF from rfl)
  have h4 : EngineReach g7 0 5 0 PlayerEnum.one c7StI :=
    EngineReach.select_and_record h3 c7_sel4
      (show storeGet c7StH (3 : Nat) = some c7Z20 from rfl) c7_po4
      (show recordRollout c7StH (3 : Nat) RolloutResult.draw = some c7StI from rfl)
  exact EngineReach.select_and_record h4 c7_sel5
    (show storeGet c7StJ (4 : Nat) = some c7Z10 from rfl) c7_po5
    (show recordRollout c7StJ (4 : Nat) RolloutResult.draw = some c7StK from rfl)

/-- C7: edge mutuality is NOT an invariant of the engine's operations.  The
store `c7StK` is reached from the empty store by five completed
selection-and-rollout iterations on the game `g7` (a game with a parity
transposition: position 2 arises both one ply and two plies from the root, so
the loop's tracked player and the node's stored player disagree there).  In
`c7StK`, the node at position 3 holds a parent edge `4 → 2`, but the node at
position 2's children map sends move 4 to position 4, not 3 — the fifth
iteration descended through the transposition and overwrote the child edge
with the move applied as the wrong player, leaving the old child's parent
edge dangling.  The mutuality check (the code's commented-out audit) fails on
the reachable store. -/
theorem C7_edge_mutuality_violated :
    EngineReach g7 0 5 0 PlayerEnum.one c7StK ∧
    storeGet c7StK 3 = some c7Z21 ∧ lookupKey c7Z21.parents 4 = some 2 ∧
    storeGet c7StK 2 = some c7A3 ∧ lookupKey c7A3.children 4 = some 4 ∧
    (4 : Nat) ≠ 3 ∧
    mutualityHolds c7StK = false :=
  ⟨c7_reach, by decide, by decide, by decide, by decide, by decide, by decide⟩

theorem sel_step_abort {P M : Type} [DecidableEq P] [DecidableEq M]
    (G : GameOps P M) (c : ℝ) (afuel fuel : Nat) (st st2 : Store P M)
    (cp : Option (M × P)) (player : PlayerEnum) (cur : P) (node : Node P M)
    (h1 : selLink (selMerge st cur player cp) cur cp = some st2)
    (h2 : storeGet st2 cur = some node)
    (h3 : ¬(node.children = [] ∧ node.local_attempts = 0))
    (h4 : choose_move_by_uct_value st2 afuel c node
        (G.all_legal_moves cur node.player) = none) :
    selection_and_expansion G c afuel (fuel + 1) st cp player cur = none := by
  rw [selection_and_expansion_succ, h1, Option.some_bind, h2, Option.some_bind, if_neg h3,
    h4]
  rfl

/-- A game driving the `u8` visit counters into wrap-around: from the root
(position 0) player one may play move 2 to the terminal draw position 3, or
move 1 to position 1, where player two's only move 3 reaches position 2, a
win for player one. -/
def g8 : GameOps Nat Nat where
  update := fun p m _ =>
    match p, m with
    | 0, 2 => 3
    | 0, 1 => 1
    | 1, 3 => 2
    | _, _ => 99
  all_legal_moves := fun p _ =>
    match p with
    | 0 => [2, 1]
    | 1 => [3]
    | _ => []
  try_conclude := fun p _ =>
    match p with
    | 3 => some Conclusion.draw
    | 2 => some (Conclusion.win PlayerEnum.one)
    | _ => none

def c8R0 : Node Nat Nat := Node.new PlayerEnum.one none

def c8StA : Store Nat Nat := [(0, c8R0)]

def c8R1 : Node Nat Nat :=
  { player := PlayerEnum.one, local_attempts := 1, local_wins := 1, local_losses := 0,
    children := [], parents := [] }

def c8St1 : Store Nat Nat := [(0, c8R1)]

def c8C0 : Node Nat Nat :=
  { player := PlayerEnum.two, local_attempts := 0, local_wins := 0, local_losses := 0,
    children := [], parents := [(1, 0)] }

def c8R1c : Node Nat Nat :=
  { player := PlayerEnum.one, local_attempts := 1, local_wins := 1, local_losses := 0,
    children := [(1, 1)], parents := [] }

def c8StC2 : Store Nat Nat := [(0, c8R1c), (1, c8C0)]

def c8C1 : Node Nat Nat :=
  { player := PlayerEnum.two, local_attempts := 1, local_wins := 0, local_losses := 1,
    children := [], parents := [(1, 0)] }

def c8St2 : Store Nat Nat := [(0, c8R1c), (1, c8C1)]

def c8D0 : Node Nat Nat :=
  { player := PlayerEnum.one, local_attempts := 0, local_wins := 0, local_losses := 0,
    children := [], parents := [(3, 1)] }

def c8C1c : Node Nat Nat :=
  { player := PlayerEnum.two, local_attempts := 1, local_wins := 0, local_losses := 1,
    children := [(3, 2)], parents := [(1, 0)] }

def c8StC3 : Store Nat Nat := [(0, c8R1c), (1, c8C1c), (2, c8D0)]

def c8D1 : Node Nat Nat :=
  { player := PlayerEnum.one, local_attempts := 1, local_wins := 1, local_losses := 0,
    children := [], parents := [(3, 1)] }

def c8St3 : Store Nat Nat := [(0, c8R1c), (1, c8C1c), (2, c8D1)]

def c8T0 : Node Nat Nat :=
  { player := PlayerEnum.two, local_attempts := 0, local_wins := 0, local_losses := 0,
    children := [], parents := [(2, 0)] }

def c8R2 : Node Nat Nat :=
  { player := PlayerEnum.one, local_attempts := 1, local_wins := 1, local_losses := 0,
    children := [(1, 1), (2, 3)], parents := [] }

def c8StC4 : Store Nat Nat := [(0, c8R2), (1, c8C1c), (2, c8D1), (3, c8T0)]

/-- The terminal-draw node after `t` recorded rollouts. -/
def c8T (t : Nat) : Node Nat Nat :=
  { player := PlayerEnum.two, local_attempts := t, local_wins := 0, local_losses := 0,
    children := [], parents := [(2, 0)] }

/-- The store after the fourth engine iteration and then `t - 1` further
draw-recording iterations at the terminal position 3. -/
def c8StoreAt (t : Nat) : Store Nat Nat :=
  [(0, c8R2), (1, c8C1c), (2, c8D1), (3, c8T t)]

theorem c8_sel1 :
    selection_and_expansion g8 0 5 9 [] none PlayerEnum.one 0 = some (0, c8StA) := rfl

theorem c8_po1 : Playout g8 PlayerEnum.one 0 PlayerEnum.one RolloutResult.win := by
  apply Playout.step rfl (show (1 : Nat) ∈ g8.all_legal_moves 0 PlayerEnum.one by decide)
  apply Playout.step rfl (show (3 : Nat) ∈ g8.all_legal_moves 1 PlayerEnum.two by decide)
  exact Playout.winSelf rfl rfl

theorem c8_choose_i2 :
    choose_move_by_uct_value c8St1 5 0 c8R1 [2, 1] = some (some 1) := by
  have e : choose_move_by_uct_value c8St1 5 0 c8R1 [2, 1] =
      some ((maxByKeyLast [((2 : Nat), f64MAX), (1, f64MAX)]).map Prod.fst) := rfl
  rw [e, maxByKeyLast_two_tie]
  rfl

theorem c8_sel2 :
    selection_and_expansion g8 0 5 9 c8St1 none PlayerEnum.one 0 = some (1, c8StC2) := by
  have s1 : selection_and_expansion g8 0 5 9 c8St1 none PlayerEnum.one 0 =
      selection_and_expansion g8 0 5 8 c8St1 (some (1, 0)) PlayerEnum.two 1 :=
    sel_step_descend g8 0 5 8 c8St1 c8St1 none PlayerEnum.one 0 c8R1 1 rfl rfl
      (by decide) c8_choose_i2
  have s2 : selection_and_expansion g8 0 5 8 c8St1 (some (1, 0)) PlayerEnum.two 1 =
      some (1, c8StC2) :=
    sel_step_return g8 0 5 7 c8St1 c8StC2 (some (1, 0)) PlayerEnum.two 1 c8C0 rfl rfl
      (by decide)
  exact s1.trans s2

theorem c8_po2 : Playout g8 PlayerEnum.two 1 PlayerEnum.two RolloutResult.loss := by
  apply Playout.step rfl (show (3 : Nat) ∈ g8.all_legal_moves 1 PlayerEnum.two by decide)
  exact Playout.winOther rfl (by decide)

theorem c8_choose_i3 :
    choose_move_by_uct_value c8St2 5 0 c8R1c [2, 1] = some (some 1) := by
  have e : choose_move_by_uct_value c8St2 5 0 c8R1c [2, 1] =
      some ((maxByKeyLast [((2 : Nat), f64MAX), (1, f64MAX)]).map Prod.fst) := rfl
  rw [e, maxByKeyLast_two_tie]
  rfl

theorem c8_sel3 :
    selection_and_expansion g8 0 5 9 c8St2 none PlayerEnum.one 0 = some (2, c8StC3) := by
  have s1 : selection_and_expansion g8 0 5 9 c8St2 none PlayerEnum.one 0 =
      selection_and_expansion g8 0 5 8 c8St2 (some (1, 0)) PlayerEnum.two 1 :=
    sel_step_descend g8 0 5 8 c8St2 c8St2 none PlayerEnum.one 0 c8R1c 1 rfl rfl
      (by decide) c8_choose_i3
  have s2 : selection_and_expansion g8 0 5 8 c8St2 (some (1, 0)) PlayerEnum.two 1 =
      selection_and_expansion g8 0 5 7 c8St2 (some (3, 1)) PlayerEnum.one 2 :=
    sel_step_descend g8 0 5 7 c8St2 c8St2 (some (1, 0)) PlayerEnum.two 1 c8C1 3 rfl rfl
      (by decide) rfl
  have s3 : selection_and_expansion g8 0 5 7 c8St2 (some (3, 1)) PlayerEnum.one 2 =
      some (2, c8StC3) :=
    sel_step_return g8 0 5 6 c8St2 c8StC3 (some (3, 1)) PlayerEnum.one 2 c8D0 rfl rfl
      (by decide)
  exact (s1.trans s2).trans s3

theorem c8_po3 : Playout g8 PlayerEnum.one 2 PlayerEnum.one RolloutResult.win :=
  Playout.winSelf rfl rfl

theorem c8_choose_i4 :
    choose_move_by_uct_value c8St3 5 0 c8R1c [2, 1] = some (some 2) := by
  have e : choose_move_by_uct_value c8St3 5 0 c8R1c [2, 1] =
      some ((maxByKeyLast [((2 : Nat), f64MAX),
        (1, ((0 : Nat) : ℝ) / ((1 : Nat) : ℝ) +
          0 * Real.sqrt (Real.log ((2 : Nat) : ℝ) / ((1 : Nat) : ℝ)))]).map Prod.fst) := rfl
  have hu : ((0 : Nat) : ℝ) / ((1 : Nat) : ℝ) +
      0 * Real.sqrt (Real.log ((2 : Nat) : ℝ) / ((1 : Nat) : ℝ)) = 0 := by norm_num
  rw [e, hu, maxByKeyLast_two_lt 2 1 0 f64MAX_pos]
  rfl

theorem c8_sel4 :
    selection_and_expansion g8 0 5 9 c8St3 none PlayerEnum.one 0 = some (3, c8StC4) := by
  have s1 : selection_and_expansion g8 0 5 9 c8St3 none PlayerEnum.one 0 =
      selection_and_expansion g8 0 5 8 c8St3 (some (2, 0)) PlayerEnum.two 3 :=
    sel_step_descend g8 0 5 8 c8St3 c8St3 none PlayerEnum.one 0 c8R1c 2 rfl rfl
      (by decide) c8_choose_i4
  have s2 : selection_and_expansion g8 0 5 8 c8St3 (some (2, 0)) PlayerEnum.two 3 =
      some (3, c8StC4) :=
    sel_step_return g8 0 5 7 c8St3 c8StC4 (some (2, 0)) PlayerEnum.two 3 c8T0 rfl rfl
      (by decide)
  exact s1.trans s2

theorem c8_reach1 : EngineReach g8 0 5 0 PlayerEnum.one (c8StoreAt 1) := by
  have h1 : EngineReach g8 0 5 0 PlayerEnum.one c8St1 :=
    EngineReach.select_and_record EngineReach.empty c8_sel1
      (show storeGet c8StA (0 : Nat) = some c8R0 from rfl) c8_po1
      (show recordRollout c8StA (0 : Nat) RolloutResult.win = some c8St1 from rfl)
  have h2 : EngineReach g8 0 5 0 PlayerEnum.one c8St2 :=
    EngineReach.select_and_record h1 c8_sel2
      (show storeGet c8StC2 (1 : Nat) = some c8C0 from rfl) c8_po2
      (show recordRollout c8StC2 (1 : Nat) RolloutResult.loss = some c8St2 from rfl)
  have h3 : EngineReach g8 0 5 0 PlayerEnum.one c8St3 :=
    EngineReach.select_and_record h2 c8_sel3
      (show storeGet c8StC3 (2 : Nat) = some c8D0 from rfl) c8_po3
      (show recordRollout c8StC3 (2 : Nat) RolloutResult.win = some c8St3 from rfl)
  exact EngineReach.select_and_record h3 c8_sel4
    (show storeGet c8StC4 (3 : Nat) = some c8T0 from rfl)
    (Playout.draws rfl)
    (show recordRollout c8StC4 (3 : Nat) RolloutResult.draw = some (c8StoreAt 1) from rfl)

theorem c8_att_R (t : Nat) :
    attempts (c8StoreAt t) 5 c8R2 = some ((t + 2) % 256) := by
  have e1 : attempts (c8StoreAt t) 5 c8R2 =
      some (valuesSum8 [((2 : Nat), (1 : Nat)), (1, 1), (3, t)]) := rfl
  have e2 : valuesSum8 [((2 : Nat), (1 : Nat)), (1, 1), (3, t)] = (t + 2) % 256 := by
    unfold valuesSum8
    simp only [List.map_cons, List.map_nil, List.sum_cons, List.sum_nil]
    omega
  rw [e1]
  exact congrArg some e2

theorem c8_uct_C (t : Nat) (a : Nat) (ha : ¬(a = 0)) :
    uct_value (c8StoreAt t) 5 c8C1c a 0 =
      some (((0 : Nat) : ℝ) / ((1 : Nat) : ℝ) +
        0 * Real.sqrt (Real.log ((a : Nat) : ℝ) / ((1 : Nat) : ℝ))) := by
  unfold uct_value
  rw [show attempts (c8StoreAt t) 5 c8C1c = some 1 from rfl]
  simp only [Option.some_bind]
  rw [if_neg (by omega : ¬((1 : Nat) = 0))]
  rw [show wins (c8StoreAt t) 5 c8C1c = some 0 from rfl]
  simp only [Option.some_bind]
  rw [if_neg ha]

theorem c8_uct_T (t : Nat) (a : Nat) :
    uct_value (c8StoreAt t) 5 (c8T t) a 0 = some f64MAX := by
  unfold uct_value
  rw [show attempts (c8StoreAt t) 5 (c8T t) = some 0 from rfl]
  simp only [Option.some_bind]
  simp only [eq_self_iff_true, if_true]

theorem c8_choose_loop (t : Nat) (ha : ¬((t + 2) % 256 = 0)) :
    choose_move_by_uct_value (c8StoreAt t) 5 0 c8R2 [2, 1] = some (some 2) := by
  have huC := c8_uct_C t ((t + 2) % 256) ha
  have huT := c8_uct_T t ((t + 2) % 256)
  have hu0 : ((0 : Nat) : ℝ) / ((1 : Nat) : ℝ) +
      0 * Real.sqrt (Real.log (((t + 2) % 256 : Nat) : ℝ) / ((1 : Nat) : ℝ)) = 0 := by
    norm_num
  unfold choose_move_by_uct_value
  rw [c8_att_R t]
  simp only [Option.some_bind]
  simp only [List.mapM_cons, List.mapM_nil,
    show lookupKey c8R2.children (2 : Nat) = some 3 from rfl,
    show lookupKey c8R2.children (1 : Nat) = some 1 from rfl,
    show storeGet (c8StoreAt t) (3 : Nat) = some (c8T t) from rfl,
    show storeGet (c8StoreAt t) (1 : Nat) = some c8C1c from rfl,
    huT, huC, Option.some_bind, Option.map_some', Option.pure_def, Option.bind_some]
  rw [hu0]
  show some ((maxByKeyLast [((2 : Nat), f64MAX), ((1 : Nat), (0 : ℝ))]).map Prod.fst) =
    some (some 2)
  rw [maxByKeyLast_two_lt 2 1 0 f64MAX_pos]
  rfl

theorem c8_sel_loop (t : Nat) (h1 : 1 ≤ t) (h2 : t ≤ 253) :
    selection_and_expansion g8 0 5 9 (c8StoreAt t) none PlayerEnum.one 0 =
      some (3, c8StoreAt t) := by
  have ha : ¬((t + 2) % 256 = 0) := by omega
  have s1 : selection_and_expansion g8 0 5 9 (c8StoreAt t) none PlayerEnum.one 0 =
      selection_and_expansion g8 0 5 8 (c8StoreAt t) (some (2, 0)) PlayerEnum.two 3 :=
    sel_step_descend g8 0 5 8 (c8StoreAt t) (c8StoreAt t) none PlayerEnum.one 0 c8R2 2
      rfl rfl (by decide) (c8_choose_loop t ha)
  have s2 : selection_and_expansion g8 0 5 8 (c8StoreAt t) (some (2, 0)) PlayerEnum.two 3 =
      some (3, c8StoreAt t) :=
    sel_step_stuck g8 0 5 7 (c8StoreAt t) (c8StoreAt t) (some (2, 0)) PlayerEnum.two 3
      (c8T t) rfl rfl
      (fun hcon => absurd (show t = 0 from hcon.2) (by omega)) rfl
  exact s1.trans s2

theorem c8_rec_loop (t : Nat) (h2 : t ≤ 253) :
    recordRollout (c8StoreAt t) 3 RolloutResult.draw = some (c8StoreAt (t + 1)) := by
  have e : recordRollout (c8StoreAt t) 3 RolloutResult.draw =
      some [(0, c8R2), (1, c8C1c), (2, c8D1),
        (3, { player := PlayerEnum.two, local_attempts := (t + 1) % 256,
              local_wins := 0, local_losses := 0,
              children := [], parents := [(2, 0)] })] := rfl
  rw [e, show (t + 1) % 256 = t + 1 from Nat.mod_eq_of_lt (by omega)]
  rfl

theorem c8_reach_all : ∀ t : Nat, 1 ≤ t → t ≤ 254 →
    EngineReach g8 0 5 0 PlayerEnum.one (c8StoreAt t) := by
  intro t
  induction t with
  | zero => intro h _; omega
  | succ n ih =>
      intro _ hle
      by_cases hn : n = 0
      · subst hn
        exact c8_reach1
      · have hr : EngineReach g8 0 5 0 PlayerEnum.one (c8StoreAt n) :=
          ih (by omega) (by omega)
        exact EngineReach.select_and_record hr
          (c8_sel_loop n (by omega) (by omega))
          (show storeGet (c8StoreAt n) (3 : Nat) = some (c8T n) from rfl)
          (Playout.draws rfl)
          (c8_rec_loop n (by omega))

/-- C8: the NaN fail-fast panic in the score comparison IS reachable through
the engine's own operations.  After the four opening iterations on `g8` and
250 further draw rollouts recorded at the terminal child (position 3), the
store `c8StoreAt 254` is reached: the root node's aggregate visit count has
wrapped to `0` (the `u8` sum 1 + 1 + 254 = 256 ≡ 0), while the child at
position 1 still has aggregate visit count 1 — so its UCT score divides
`ln(0)`'s argument, `uct_value` is undefined (`none`, Rust: `0/1 + 0.0 *
(ln 0 / 1).sqrt() = NaN`), and `choose_move_by_uct_value` aborts: the next
`selection_and_expansion` from the root returns `none` (the `OrdF64`
comparison panics on the NaN score). -/
theorem C8_nan_panic_reachable :
    EngineReach g8 0 5 0 PlayerEnum.one (c8StoreAt 254) ∧
    storeGet (c8StoreAt 254) 0 = some c8R2 ∧
    attempts (c8StoreAt 254) 5 c8R2 = some 0 ∧
    lookupKey c8R2.children 1 = some 1 ∧
    storeGet (c8StoreAt 254) 1 = some c8C1c ∧
    attempts (c8StoreAt 254) 5 c8C1c = some 1 ∧
    uct_value (c8StoreAt 254) 5 c8C1c 0 0 = none ∧
    choose_move_by_uct_value (c8StoreAt 254) 5 0 c8R2 [2, 1] = none ∧
    selection_and_expansion g8 0 5 9 (c8StoreAt 254) none PlayerEnum.one 0 = none := by
  have huct : uct_value (c8StoreAt 254) 5 c8C1c 0 0 = none := by
    unfold uct_value
    rw [show attempts (c8StoreAt 254) 5 c8C1c = some 1 from rfl]
    simp only [Option.some_bind]
    rw [if_neg (by omega : ¬((1 : Nat) = 0))]
    rw [show wins (c8StoreAt 254) 5 c8C1c = some 0 from rfl]
    simp only [Option.some_bind]
    simp only [eq_self_iff_true, if_true]
  have hchoose : choose_move_by_uct_value (c8StoreAt 254) 5 0 c8R2 [2, 1] = none := by
    have huT := c8_uct_T 254 0
    unfold choose_move_by_uct_value
    rw [show attempts (c8StoreAt 254) 5 c8R2 = some 0 from by decide]
    simp only [Option.some_bind]
    simp only [List.mapM_cons, List.mapM_nil,
      show lookupKey c8R2.children (2 : Nat) = some 3 from rfl,
      show lookupKey c8R2.children (1 : Nat) = some 1 from rfl,
      show storeGet (c8StoreAt 254) (3 : Nat) = some (c8T 254) from rfl,
      show storeGet (c8StoreAt 254) (1 : Nat) = some c8C1c from rfl,
      huT, huct, Option.some_bind, Option.map_some', Option.pure_def, Option.bind_some]
    rfl
  have hsel : selection_and_expansion g8 0 5 9 (c8StoreAt 254) none PlayerEnum.one 0 =
      none :=
    sel_step_abort g8 0 5 8 (c8StoreAt 254) (c8StoreAt 254) none PlayerEnum.one 0 c8R2
      rfl rfl (by decide) hchoose
  exact ⟨c8_reach_all 254 (by omega) (by omega), by decide, by decide, by decide,
    by decide, by decide, huct, hchoose, hsel⟩
